import Mathlib

/-!
Verification development for the CodeFlattener repository
(`code_flattener.py`).  The Python source is shallowly embedded: text is
modelled as `List Char` (ASCII inputs; the only line terminator modelled
is `'\n'`, and the regex classes `\w`, `\s` are modelled on their ASCII
subsets, which is exact for every input appearing in the claims),
machine integers as `Nat`, fallible operations as `Option`/`Except`.
Every definition is translated from the source file; section comments
name the Python function each definition embeds.
-/

namespace CodeFlattener

/-! ### Python text primitives

Character classes and string helpers used throughout the source:
`str.strip`, `str.rstrip`, `str.splitlines`, `str.replace`,
`os.path.basename`, `os.path.splitext`. -/

/-- Python `str` whitespace (ASCII): the characters stripped by
`str.strip` / `str.rstrip` and matched by the regex class `\s`. -/
def pySpace (c : Char) : Bool :=
  c = ' ' || c = '\t' || c = '\n' || c = '\x0d' || c = '\x0b' || c = '\x0c'

/-- The double-quote character (written via its code point). -/
def dq : Char := Char.ofNat 34

/-- The single-quote character (written via its code point). -/
def sq : Char := Char.ofNat 39

/-- Regex `\w` (ASCII): letters, digits and underscore. -/
def wordChar (c : Char) : Bool :=
  (c ≥ 'a' && c ≤ 'z') || (c ≥ 'A' && c ≤ 'Z') || (c ≥ '0' && c ≤ '9') || c = '_'

/-- Python `str.lstrip()`. -/
def pyLstrip (s : List Char) : List Char := s.dropWhile pySpace

/-- Python `str.rstrip()`. -/
def pyRstrip (s : List Char) : List Char := (s.reverse.dropWhile pySpace).reverse

/-- Python `str.strip()`. -/
def pyStrip (s : List Char) : List Char := pyRstrip (pyLstrip s)

/-- Python `str.splitlines()` restricted to `'\n'` line terminators:
`[] ↦ []`, otherwise the text up to the first `'\n'` is one line and the
rest is split recursively; a trailing `'\n'` does not produce an empty
final line. -/
def pySplitlines : List Char → List (List Char)
  | [] => []
  | c :: rest =>
    if c = '\n' then [] :: pySplitlines rest
    else match pySplitlines rest with
      | [] => [[c]]
      | l :: ls => (c :: l) :: ls

/-- Joining lines with a single `'\n'`, as `'\n'.join(lines)`. -/
def joinNl : List (List Char) → List Char
  | [] => []
  | [l] => l
  | l :: ls => l ++ '\n' :: joinNl ls

/-- Index of the first occurrence of `needle` in `s` (`str.find`). -/
def findSub (needle : List Char) : List Char → Option Nat
  | [] => if needle = [] then some 0 else none
  | c :: rest =>
    if needle.isPrefixOf (c :: rest) then some 0
    else (findSub needle rest).map (· + 1)

/-- A needle found by `findSub` lies inside the string. -/
theorem findSub_some_lt (needle : List Char) (hne : needle ≠ []) :
    ∀ s p, findSub needle s = some p → p < s.length := by
  intro s
  induction s with
  | nil => intro p h; simp [findSub, hne] at h
  | cons c rest ih =>
    intro p h
    rw [findSub] at h
    split at h
    · cases h; simp
    · rcases Option.map_eq_some'.mp h with ⟨q, hq, rfl⟩
      have := ih q hq
      simp; omega

/-- Python `str.replace(needle, repl)`: leftmost, non-overlapping, the
replacement text is never rescanned.  (For the empty needle the source
never calls this, and we leave the string unchanged.) -/
def pyReplace (needle repl : List Char) : List Char → List Char
  | [] => []
  | c :: rest =>
    if needle ≠ [] ∧ needle.isPrefixOf (c :: rest) then
      repl ++ pyReplace needle repl (rest.drop (needle.length - 1))
    else
      c :: pyReplace needle repl rest
termination_by s => s.length
decreasing_by
  · simp only [List.length_cons]
    have := List.length_drop (needle.length - 1) rest
    omega
  · simp

/-- Python `os.path.basename` on a forward-slash path: the text after
the final `'/'`. -/
def pyBasename (s : List Char) : List Char :=
  ((s.reverse.takeWhile (· ≠ '/')).reverse)

/-- Python `os.path.dirname` on a forward-slash path: the text before
the final `'/'` (empty if there is none). -/
def pyDirname (s : List Char) : List Char :=
  match findSub ['/'] s.reverse with
  | none => []
  | some k => s.take (s.length - 1 - k)

/-- Python `os.path.splitext(path)[1]`: the extension of the basename,
i.e. the suffix from the last `'.'` that has a non-dot character before
it within the basename (so `.env` has no extension). -/
def pySplitext (path : List Char) : List Char :=
  let b := pyBasename path
  let lead := (b.takeWhile (· = '.')).length
  let core := b.drop lead
  match findSub ['.'] core.reverse with
  | none => []
  | some k => core.drop (core.length - 1 - k)

/-- Python `str.lower()` (ASCII). -/
def pyLower (s : List Char) : List Char := s.map Char.toLower

/-! ### `CodeFlattener._estimate_tokens`

`words = re.findall(r'\b\w+\b', text)` counts the maximal runs of word
characters; `symbols = len(re.findall(r'[^\w\s]', text))` counts the
characters that are neither word characters nor whitespace; the estimate
is their sum. -/

/-- Number of maximal runs of word characters; `inRun` records whether
the previous character was a word character. -/
def wordRunsAux (inRun : Bool) : List Char → Nat
  | [] => 0
  | c :: rest =>
    if wordChar c then (if inRun then 0 else 1) + wordRunsAux true rest
    else wordRunsAux false rest

/-- Count of `re.findall(r'\b\w+\b', text)`. -/
def wordRuns (s : List Char) : Nat := wordRunsAux false s

/-- Count of `re.findall(r'[^\w\s]', text)`. -/
def symbolCount (s : List Char) : Nat :=
  (s.filter (fun c => ¬ wordChar c ∧ ¬ pySpace c)).length

/-- `CodeFlattener._estimate_tokens`. -/
def estimateTokens (s : List Char) : Nat := wordRuns s + symbolCount s

/-! ### `CodeFlattener.SUPPORTED_EXTENSIONS` and the comment grammars -/

/-- `CodeFlattener.SUPPORTED_EXTENSIONS`: extension (with leading dot)
to language tag. -/
def SUPPORTED_EXTENSIONS : List (String × String) :=
  [(".py", "python"), (".js", "javascript"), (".ts", "typescript"),
   (".jsx", "javascript"), (".tsx", "typescript"), (".java", "java"),
   (".go", "go"), (".rs", "rust"), (".cpp", "cpp"), (".hpp", "cpp"),
   (".h", "cpp"), (".c", "c"), (".rb", "ruby"), (".php", "php"),
   (".sh", "bash"), (".yaml", "yaml"), (".yml", "yaml"),
   (".json", "json"), (".md", "markdown"), (".txt", "text")]

/-- Looks a key up in an association list, as `dict.get`. -/
def lookupAssoc (xs : List (String × α)) (k : String) : Option α :=
  (xs.find? (fun p => p.1 = k)).map (·.2)

/-- A language's comment grammar.  `single` is the start marker of the
single-line pattern `<single>.*$` (with `re.MULTILINE`); `multi` is the
list of `(open, close)` delimiter pairs of the block patterns
`<open>[\s\S]*?<close>` (non-greedy), in the order the source applies
them. -/
structure CommentGrammar where
  single : List Char
  multi : List (List Char × List Char)
deriving DecidableEq

/-- `CodeFlattener._get_language_specific_patterns`, as a map from the
language tag; tags absent from the dictionary yield `none` (the Python
code gets `{}`, which is falsy). -/
def langGrammar (tag : String) : Option CommentGrammar :=
  if tag = "python" then
    some ⟨['#'], [([dq, dq, dq], [dq, dq, dq]),
                  ([sq, sq, sq], [sq, sq, sq])]⟩
  else if tag = "javascript" || tag = "typescript" || tag = "java"
       || tag = "go" || tag = "rust" then
    some ⟨['/', '/'], [(['/', '*'], ['*', '/'])]⟩
  else if tag = "ruby" then
    some ⟨['#'], [(['=', 'b', 'e', 'g', 'i', 'n'],
                   ['=', 'e', 'n', 'd'])]⟩
  else none

/-- Grammar selected by `_clean_code` for a file path: the extension is
lowercased, mapped through `SUPPORTED_EXTENSIONS` with default tag
`"text"`, and looked up among the grammars. -/
def grammarForPath (path : List Char) : Option CommentGrammar :=
  let ext := pyLower (pySplitext path)
  langGrammar ((lookupAssoc SUPPORTED_EXTENSIONS ⟨ext⟩).getD "text")

/-! ### `CodeFlattener._clean_code` -/

/-- One line of `re.sub(r'<marker>.*$', '', code, flags=re.MULTILINE)`:
everything from the first occurrence of the marker to the end of the
line is removed. -/
def dropLineComment (marker line : List Char) : List Char :=
  match findSub marker line with
  | none => line
  | some k => line.take k

/-- `re.sub` of a single-line comment pattern `<marker>.*$` with
`re.MULTILINE`: applied per physical line, the newlines are kept. -/
def removeLineComments (marker : List Char) (code : List Char) : List Char :=
  joinNl ((splitOnNl code).map (dropLineComment marker))
where
  /-- Split on every `'\n'` (unlike `pySplitlines`, a trailing newline
  yields a trailing empty piece, so joining with `'\n'` restores the
  text). -/
  splitOnNl : List Char → List (List Char)
    | [] => [[]]
    | c :: rest =>
      if c = '\n' then [] :: splitOnNl rest
      else match splitOnNl rest with
        | [] => [[c]]
        | l :: ls => (c :: l) :: ls

/-- `re.sub(r'<op>[\s\S]*?<cl>', '', code)`: repeatedly, the leftmost
occurrence of `op` that is followed (disjointly) by an occurrence of
`cl` is removed together with everything up to the nearest such `cl`
(non-greedy); scanning resumes after the removed block. -/
def removeBlock (op cl : List Char) (s : List Char) : List Char :=
  if hop : op = [] then s else
  match hfind : findSub op s with
  | none => s
  | some p =>
    let after := s.drop (p + op.length)
    match findSub cl after with
    | none => s
    | some r => s.take p ++ removeBlock op cl (after.drop (r + cl.length))
termination_by s.length
decreasing_by
  have hol : 1 ≤ op.length := by
    cases op with
    | nil => exact absurd rfl hop
    | cons a l => simp
  have hps : p < s.length := findSub_some_lt op hop s p hfind
  simp only [after, List.length_drop]
  omega

/-- The final loop of `_clean_code`: drop every line that is blank
after stripping, trim trailing whitespace from the kept lines, and
rejoin with single newlines. -/
def cleanLines (code : List Char) : List Char :=
  joinNl (((pySplitlines code).filter (fun l => pyStrip l ≠ [])).map pyRstrip)

/-- `CodeFlattener._clean_code`: the single-line pattern is removed
first, then each block pattern in order, then blank lines are dropped
and trailing whitespace trimmed. -/
def cleanCode (code : List Char) (path : List Char) : List Char :=
  let afterComments :=
    match grammarForPath path with
    | none => code
    | some g =>
        (g.multi).foldl (fun acc (oc : List Char × List Char) =>
          removeBlock oc.1 oc.2 acc) (removeLineComments g.single code)
  cleanLines afterComments

/-! ### `CodeFlattener._process_file` -/

/-- `FileStats` dataclass. -/
structure FileStats where
  size : Nat
  tokens : Nat
  lines : Nat
deriving DecidableEq

/-- The fixed truncation marker appended by `_process_file`. -/
def truncationMarker : List Char :=
  ("\n# ... (truncated due to token limit) ...").data

/-- The truncation step of `_process_file`: when the estimate exceeds
the limit, keep the first `⌊len · limit / tokens⌋` characters and
append the marker (`int` of the exact ratio; the Python float division
is exact for the magnitudes involved). -/
def enforceTokenLimit (maxTok : Nat) (s : List Char) : List Char :=
  let tokens := estimateTokens s
  if tokens > maxTok then
    s.take ((s.length * maxTok) / tokens) ++ truncationMarker
  else s

/-- The per-file section appended to `flattened_content`: the f-string
`### File: {relative_path}\n```python\n{cleaned_content}\n```\n` (the
fence label is the literal `python` for every file). -/
def mkSection (relPath body : List Char) : List Char :=
  ("### File: ").data ++ relPath ++ ("\n```python\n").data
    ++ body ++ ("\n```\n").data

/-- `CodeFlattener._process_file` for a file with relative path
`relPath`, on-disk size `fsize` and decoded text `content`: `none`
when the file is skipped (unsupported extension, oversized, or empty
after cleaning), otherwise the recorded `FileStats` and the section
text.  The token count is computed before truncation; the line count
after. -/
def processFile (maxSize maxTok : Nat) (relPath : List Char)
    (fsize : Nat) (content : List Char) : Option (FileStats × List Char) :=
  if lookupAssoc SUPPORTED_EXTENSIONS (String.mk (pyLower (pySplitext relPath))) = none
    then none
  else if fsize > maxSize then none
  else if cleanCode content relPath = [] then none
  else
    some (⟨fsize, estimateTokens (cleanCode content relPath),
        (pySplitlines (enforceTokenLimit maxTok (cleanCode content relPath))).length⟩,
      mkSection relPath (enforceTokenLimit maxTok (cleanCode content relPath)))

/-! ### `CodeFlattener._glob_to_regex`

`re.escape(pattern)` (Python ≥ 3.7) prefixes a backslash to exactly the
characters of `specialChars`; the source then unescapes `*` and `?`,
rewrites the glob wildcards with three `str.replace` calls, and adds
the directory suffix, the anchoring prefix and the final `$`. -/

/-- The characters escaped by `re.escape`. -/
def specialChars : List Char :=
  ['(', ')', '[', ']', '{', '}', '?', '*', '+', '-', '|', '^', '$',
   '\\', '.', '&', '~', '#', ' ', '\t', '\n', '\x0d', '\x0b', '\x0c']

/-- `re.escape`. -/
def pyEscape (s : List Char) : List Char :=
  s.flatMap (fun c => if c ∈ specialChars then ['\\', c] else [c])

/-- `CodeFlattener._glob_to_regex`. -/
def globToRegex (pattern : List Char) : List Char :=
  if pattern = [] then [] else
  let p1 := pyReplace ['\\', '?'] ['?'] (pyReplace ['\\', '*'] ['*'] (pyEscape pattern))
  let p2 := pyReplace ['?'] ['[', '^', '/', ']']
              (pyReplace ['*'] ['[', '^', '/', ']', '*']
                (pyReplace ['*', '*'] ['.', '*'] p1))
  let p3 := if p2.getLast? = some '/'
    then p2.dropLast ++ ['(', '?', ':', '/', '.', '*', ')', '?']
    else p2
  let p4 := if p3.head? = some '/'
    then '^' :: p3.tail
    else ['(', '?', ':', '^', '|', '/', ')'] ++ p3
  p4 ++ ['$']

/-! ### A regex engine for the compiled patterns

`_should_ignore` runs `re.search` on the compiled pattern strings.  We
give the fragment of Python regex syntax these strings use (literals,
`\c` escapes, `.`, character classes, non-capturing groups,
alternation, `*`/`?`/`+` postfixes and the `^`/`$` anchors) an abstract
syntax, a parser, and a backtracking matcher.  Parser failure models
`re.error`; the fragment is a subset of Python's syntax, so success of
this parser is conservative.  (Paths never contain `'\n'`, so the
newline subtleties of `.` and `$` are immaterial.) -/

/-- Abstract syntax of the regex fragment. -/
inductive Re where
  | eps
  | lit (c : Char)
  | dot
  | cls (neg : Bool) (cs : List Char)
  | seq (a b : Re)
  | alt (a b : Re)
  | star (a : Re)
  | opt (a : Re)
  | bol
  | eol
deriving DecidableEq

/-- Scanner tokens. -/
inductive RTok where
  | lit (c : Char)
  | dot
  | bol
  | eol
  | cls (neg : Bool) (cs : List Char)
  | gopen
  | gclose
  | bar
  | star
  | quest
  | plus
deriving DecidableEq

/-- Scanner: `\c` is a literal, `[^/]` is the class token (the only
character class the compiled patterns ever contain; any other class
syntax is rejected, conservatively), `(?:` opens a group (capturing
groups are rejected: the compiled patterns never contain them), and
quantifiers and anchors are single tokens; any other character is a
literal.  `none` models a lexical `re.error`. -/
def scanRe : List Char → Option (List RTok)
  | [] => some []
  | '\\' :: [] => none
  | '\\' :: c :: rest => (scanRe rest).map (RTok.lit c :: ·)
  | '[' :: '^' :: '/' :: ']' :: rest => (scanRe rest).map (RTok.cls true ['/'] :: ·)
  | '[' :: _ => none
  | '(' :: '?' :: ':' :: rest => (scanRe rest).map (RTok.gopen :: ·)
  | '(' :: _ => none
  | ')' :: rest => (scanRe rest).map (RTok.gclose :: ·)
  | '|' :: rest => (scanRe rest).map (RTok.bar :: ·)
  | '.' :: rest => (scanRe rest).map (RTok.dot :: ·)
  | '^' :: rest => (scanRe rest).map (RTok.bol :: ·)
  | '$' :: rest => (scanRe rest).map (RTok.eol :: ·)
  | '*' :: rest => (scanRe rest).map (RTok.star :: ·)
  | '?' :: rest => (scanRe rest).map (RTok.quest :: ·)
  | '+' :: rest => (scanRe rest).map (RTok.plus :: ·)
  | c :: rest => (scanRe rest).map (RTok.lit c :: ·)

/-- The regex atom of an atom token. -/
def atomOf : RTok → Re
  | RTok.lit c => Re.lit c
  | RTok.dot => Re.dot
  | RTok.bol => Re.bol
  | RTok.eol => Re.eol
  | RTok.cls n cs => Re.cls n cs
  | _ => Re.eps

/-- A concatenation from a reversed atom list. -/
def seqOfRev : List Re → Re
  | [] => Re.eps
  | a :: rest => Re.seq (seqOfRev rest) a

/-- An alternation from a reversed alternative list (never called on
the empty list). -/
def altOfRev : List Re → Re
  | [] => Re.eps
  | [a] => a
  | a :: rest => Re.alt (altOfRev rest) a

/-- Whether a regex is already quantified (a second quantifier
directly on it is a `multiple repeat` error in Python). -/
def isQuant : Re → Bool
  | Re.star _ => true
  | Re.opt _ => true
  | _ => false

/-- Parser for the token stream: a state machine carrying the current
(reversed) atom list `cur`, the finished (reversed) alternatives
`alts`, and — inside a group — the saved outer state.  A quantifier
token wraps the most recent atom (or the just-closed group).  Groups do
not nest in any compiled pattern, so a nested `(?:` is rejected
(conservatively), as are dangling and doubled quantifiers, an unclosed
group and an unmatched `)`, which are `re.error`s in Python. -/
def parseLoop : Option (List Re × List Re) → List Re → List Re →
    List RTok → Option Re
  | none, alts, cur, [] => some (altOfRev (seqOfRev cur :: alts))
  | some _, _, _, [] => none
  | outer, alts, cur, RTok.bar :: rest =>
    parseLoop outer (seqOfRev cur :: alts) [] rest
  | none, alts, cur, RTok.gopen :: rest => parseLoop (some (cur, alts)) [] [] rest
  | some _, _, _, RTok.gopen :: _ => none
  | none, _, _, RTok.gclose :: _ => none
  | some (ocur, oalts), alts, cur, RTok.gclose :: rest =>
    parseLoop none oalts (altOfRev (seqOfRev cur :: alts) :: ocur) rest
  | outer, alts, a :: cur, RTok.star :: rest =>
    if isQuant a then none else parseLoop outer alts (Re.star a :: cur) rest
  | _, _, [], RTok.star :: _ => none
  | outer, alts, a :: cur, RTok.quest :: rest =>
    if isQuant a then none else parseLoop outer alts (Re.opt a :: cur) rest
  | _, _, [], RTok.quest :: _ => none
  | _, _, _, RTok.plus :: _ => none
  | outer, alts, cur, t :: rest => parseLoop outer alts (atomOf t :: cur) rest

/-- Whole-pattern parse: the scanner, then the alternation grammar,
which must consume every token (an unmatched `)` therefore fails).
`none` models `re.error`. -/
def parseRe (pat : List Char) : Option Re :=
  (scanRe pat).bind (parseLoop none [] [])

/-- Class membership: `[cs]` or, when `neg`, `[^cs]` (the compiled
patterns only ever contain the class `[^/]`, so ranges do not arise). -/
def charInClass (neg : Bool) (cs : List Char) (d : Char) : Bool :=
  if neg then ¬ cs.contains d else cs.contains d

/-- Structural size of a regex, used only to choose a sufficient
matcher fuel. -/
def reSize : Re → Nat
  | Re.seq a b => 1 + reSize a + reSize b
  | Re.alt a b => 1 + reSize a + reSize b
  | Re.star a => 1 + reSize a
  | Re.opt a => 1 + reSize a
  | _ => 1

/-- Backtracking matcher: all ways `r` can match starting at absolute
position `i` with remaining input `s`, as `(end position, remaining)`
pairs.  `^` matches only at position 0 and `$` only at the very end
(the matched texts never contain `'\n'`).  The fuel bounds the depth of
the recursion; every star unfolding requires strict progress (which
does not change the matched language), so the recursion depth is at
most `(reSize r + 2) * (s.length + 2)` and the fuel used by `reSearch`
below never runs out. -/
def reMatch : Nat → Re → Nat → List Char → List (Nat × List Char)
  | 0, _, _, _ => []
  | _ + 1, Re.eps, i, s => [(i, s)]
  | _ + 1, Re.lit c, i, s =>
    match s with
    | [] => []
    | d :: t => if d = c then [(i + 1, t)] else []
  | _ + 1, Re.dot, i, s =>
    match s with
    | [] => []
    | d :: t => if d = '\n' then [] else [(i + 1, t)]
  | _ + 1, Re.cls neg cs, i, s =>
    match s with
    | [] => []
    | d :: t => if charInClass neg cs d then [(i + 1, t)] else []
  | fuel + 1, Re.seq a b, i, s =>
    (reMatch fuel a i s).flatMap (fun p => reMatch fuel b p.1 p.2)
  | fuel + 1, Re.alt a b, i, s => reMatch fuel a i s ++ reMatch fuel b i s
  | fuel + 1, Re.opt a, i, s => (i, s) :: reMatch fuel a i s
  | fuel + 1, Re.star a, i, s =>
    (i, s) :: ((reMatch fuel a i s).filter (fun p => i < p.1)).flatMap
      (fun p => reMatch fuel (Re.star a) p.1 p.2)
  | _ + 1, Re.bol, i, s => if i = 0 then [(i, s)] else []
  | _ + 1, Re.eol, i, s => if s = [] then [(i, s)] else []

/-- `re.search`: some match starting at some position of the string. -/
def reSearch (r : Re) (s : List Char) : Bool :=
  (List.range (s.length + 1)).any
    (fun k => reMatch ((reSize r + 2) * (s.length + 2)) r k (s.drop k) ≠ [])

/-- `re.search(pattern, text)` on a pattern string; `none` models a
compile error (`re.error`). -/
def reSearchPat (pat s : List Char) : Option Bool :=
  (parseRe pat).map (fun r => reSearch r s)

/-! ### `CodeFlattener._should_ignore` and the pattern set -/

/-- `CodeFlattener._should_ignore`, for the compiled pattern list and a
root-relative path: each pattern is searched against the whole relative
path and against the basename; the first match wins.  A pattern that
fails to compile raises (`Except.error`), exactly where the source's
`re.search` would. -/
def shouldIgnoreE : List (List Char) → List Char → Except Unit Bool
  | [], _ => Except.ok false
  | p :: rest, rel =>
    match reSearchPat p rel with
    | none => Except.error ()
    | some true => Except.ok true
    | some false =>
      match reSearchPat p (pyBasename rel) with
      | none => Except.error ()
      | some true => Except.ok true
      | some false => shouldIgnoreE rest rel

/-- The hard-coded `default_patterns` of `_load_gitignore` (raw regex
strings). -/
def defaultPatterns : List (List Char) :=
  [("\\.git(?:/.*)?").data, ("\\.idea(?:/.*)?").data,
   ("__pycache__(?:/.*)?").data, (".*\\.pyc").data, (".*\\.log").data,
   ("\\.env").data, (".*venv(?:/.*)?").data, ("node_modules(?:/.*)?").data,
   ("dist(?:/.*)?").data, ("build(?:/.*)?").data]

/-- The `.gitignore` parsing loop of `_load_gitignore`: each line is
stripped; blank and `#`-prefixed lines are skipped; lines starting with
`!` are skipped (negation unsupported); every other line is compiled
with `_glob_to_regex`. -/
def gitignorePatterns : List (List Char) → List (List Char)
  | [] => []
  | line :: rest =>
    let l := pyStrip line
    if l ≠ [] ∧ ¬ (['#'].isPrefixOf l) then
      if ['!'].isPrefixOf l then gitignorePatterns rest
      else globToRegex l :: gitignorePatterns rest
    else gitignorePatterns rest

/-- `all_ignore_patterns` as assembled by `_load_gitignore`: when no
`.gitignore` file exists the method returns early and the list stays
empty; otherwise defaults, then `.gitignore` rules, then the compiled
caller-supplied patterns. -/
def loadIgnorePatterns (gitignoreLines : Option (List (List Char)))
    (callerPats : List (List Char)) : List (List Char) :=
  match gitignoreLines with
  | none => []
  | some lines =>
    defaultPatterns ++ gitignorePatterns lines ++ callerPats.map globToRegex

/-! ### The traversal (`CodeFlattener.flatten` / `os.walk`) -/

/-- A directory tree: files are `(name, byte size, text)`, directories
are `(name, subtree)`. -/
inductive FSTree where
  | node (files : List (String × Nat × List Char)) (dirs : List (String × FSTree))

/-- The immediate subdirectories of a tree node. -/
def FSTree.dirs : FSTree → List (String × FSTree)
  | node _ ds => ds

/-- The immediate files of a tree node. -/
def FSTree.files : FSTree → List (String × Nat × List Char)
  | node fs _ => fs

/-- The root-relative path string of a segment list
(`os.path.relpath` of a path under the root, with `/` separators). -/
def relSegs (segs : List String) : List Char := (String.intercalate "/" segs).data

/-- The `os.walk` loop of `CodeFlattener.flatten`, parameterised by the
ignore predicate (`_should_ignore` on the root-relative path) and the
per-file processor (`_process_file`).  At each directory, ignored
subdirectories are pruned from `dirnames` in place and the rest are
visited in sorted order; the directory's files are visited in sorted
order, each surviving file contributing its processor result.  Output
elements are `(path segments, FileStats, section text)` in traversal
order. -/
def flattenTree (ign : List String → Bool)
    (proc : List Char → Nat → List Char → Option (FileStats × List Char))
    (pref : List String) : FSTree → List (List String × FileStats × List Char)
  | FSTree.node files dirs =>
    let sortedFiles := List.insertionSort (fun a b => a.1 ≤ b.1) files
    let fileRecs := sortedFiles.filterMap (fun f =>
      if ign (pref ++ [f.1]) then none
      else (proc (relSegs (pref ++ [f.1])) f.2.1 f.2.2).map
        (fun r => (pref ++ [f.1], r)))
    let keptDirs := List.insertionSort (fun a b => a.1 ≤ b.1)
      (dirs.filter (fun d => ¬ ign (pref ++ [d.1])))
    fileRecs ++ keptDirs.attach.flatMap
      (fun d => flattenTree ign proc (pref ++ [d.1.1]) d.1.2)
termination_by t => sizeOf t
decreasing_by
  obtain ⟨⟨n, t⟩, hmem⟩ := d
  have h3 := List.sizeOf_lt_of_mem
    (List.mem_of_mem_filter ((List.mem_insertionSort _).mp hmem))
  simp at h3 ⊢
  omega

/-! ### The report (`_generate_project_structure`, `_generate_summary`,
`save_output`) -/

/-- Python `str(n)` for a count. -/
def natChars (n : Nat) : List Char := (toString n).data

/-- `'  ' * n`. -/
def indentChars (n : Nat) : List Char := (List.replicate n ' ').flatMap (fun c => [c, c])

/-- Splits a path on `os.sep` (`'/'`), as `file_path.split(os.sep)`. -/
def splitSlash : List Char → List (List Char)
  | [] => [[]]
  | c :: rest =>
    if c = '/' then [] :: splitSlash rest
    else match splitSlash rest with
      | [] => [[c]]
      | l :: ls => (c :: l) :: ls

/-- The per-file line of the Project Structure section:
`'  ' * depth + 📄 basename (lines lines, ~tokens tokens)`. -/
def fileEntryLine (filePath : List Char) (st : FileStats) : List Char :=
  indentChars ((splitSlash filePath).length - 1)
    ++ ("📄 ").data ++ pyBasename filePath
    ++ (" (").data ++ natChars st.lines ++ (" lines, ~").data
    ++ natChars st.tokens ++ (" tokens)").data

/-- The directory line of the Project Structure section. -/
def dirEntryLine (cur : List Char) : List Char :=
  indentChars ((splitSlash cur).length - 1)
    ++ ("📁 ").data ++ pyBasename cur ++ ['/']

/-- Python-dict lookup (keys are always present when used). -/
def dictGet (d : List (List Char × FileStats)) (k : List Char) : FileStats :=
  ((d.find? (fun p => p.1 = k)).map (·.2)).getD ⟨0, 0, 0⟩

/-- Python-dict insertion: an existing key is overwritten in place, a
new key is appended. -/
def dictInsert (k : List Char) (v : FileStats)
    (d : List (List Char × FileStats)) : List (List Char × FileStats) :=
  if d.any (fun p => p.1 = k) then d.map (fun p => if p.1 = k then (k, v) else p)
  else d ++ [(k, v)]

/-- `self.file_stats` accumulated over the traversal result (a dict
keyed by relative path). -/
def fileStatsDict (recs : List (List String × FileStats × List Char)) :
    List (List Char × FileStats) :=
  recs.foldl (fun d r => dictInsert (relSegs r.1) r.2.1 d) []

/-- The loop of `_generate_project_structure`: iterate the sorted keys
with the `last_dir` state, emitting a directory line whenever the
parent directory changes to a non-empty one, then the file line. -/
def structLoop (d : List (List Char × FileStats)) :
    List (List Char) → Option (List Char) → List (List Char)
  | [], _ => []
  | k :: ks, last =>
    let cur := pyDirname k
    let dirPart := if some cur ≠ last ∧ cur ≠ [] then [dirEntryLine cur] else []
    dirPart ++ fileEntryLine k (dictGet d k) :: structLoop d ks (some cur)

/-- The lines of `_generate_project_structure` (joined with `'
'` in
the rendered document). -/
def structureLines (d : List (List Char × FileStats)) : List (List Char) :=
  structLoop d (List.insertionSort (fun a b => a ≤ b) (d.map (·.1))) none

/-- `_generate_project_structure`. -/
def generateProjectStructure (d : List (List Char × FileStats)) : List Char :=
  joinNl (structureLines d)

/-- Decimal rendering of `total_size / 1024` to one decimal place,
modelling the format `{total_size / 1024:.1f}` (rounding to nearest
tenth; the float's exact tie-breaking is immaterial to the claims). -/
def kbOneDecimal (bytes : Nat) : List Char :=
  let t := (bytes * 20 + 1024) / 2048
  natChars (t / 10) ++ ['.'] ++ natChars (t % 10)

/-- `_generate_summary`: the four totals are the length of the stats
dict and the sums of its per-file lines, tokens and sizes. -/
def generateSummary (d : List (List Char × FileStats)) : List Char :=
  ("## Project Summary

- Total files processed: ").data
    ++ natChars d.length
    ++ ("
- Total lines of code: ").data
    ++ natChars ((d.map (fun p => p.2.lines)).sum)
    ++ ("
- Estimated total tokens: ").data
    ++ natChars ((d.map (fun p => p.2.tokens)).sum)
    ++ ("
- Total size: ").data
    ++ kbOneDecimal ((d.map (fun p => p.2.size)).sum)
    ++ (" KB
").data

/-- The fixed preamble written by `save_output`. -/
def headerText : List Char :=
  ("# Codebase Flattened for Agentic Workflow

This file contains the project's source code, optimized for token efficiency:
- Comments and docstrings have been removed
- Empty lines have been cleaned up
- Large files have been truncated
- Only relevant file types are included

").data

/-- The document written by `save_output`, from the stats dict and the
accumulated `flattened_content` sections. -/
def renderDocument (d : List (List Char × FileStats))
    (sections : List (List Char)) : List Char :=
  headerText ++ generateSummary d
    ++ ("
## Project Structure

").data
    ++ generateProjectStructure d
    ++ ("

## Source Code

Each file is demarcated by a header showing its relative path.

--------------------

").data
    ++ joinNl sections

/-! ## Claim theorems -/

set_option maxRecDepth 400000 in
unseal pyReplace in
/-- C1 (code bug, failing input): the source's comment says `**` should
match any number of directories, but because the later
`replace('*', '[^/]*')` rewrites the `*` of the `.*` produced from
`**`, the rule `a/**/b` compiles to `(?:^|/)a/.[^/]*/b$`, which cannot
cross a path separator: `_should_ignore` accepts `a/x/b` but rejects
`a/x/y/b`, so the rule does not exclude `a/x/y/b` as the claim states. -/
theorem c1_globstar_does_not_cross_segments :
    globToRegex (("a/**/b").data) = ("(?:^|/)a/.[^/]*/b$").data
    ∧ shouldIgnoreE [globToRegex (("a/**/b").data)] (("a/x/y/b").data) = Except.ok false
    ∧ shouldIgnoreE [globToRegex (("a/**/b").data)] (("a/x/b").data) = Except.ok true := by
  refine ⟨by decide, ?_, ?_⟩ <;> rfl

/-- The input of the C2 counterexample: ten symbol characters followed
by ten spaces (estimate 10, all of it in the first half). -/
def c2Text : List Char := List.replicate 10 '!' ++ List.replicate 10 ' '

/-- C2 (counterexample): for the text of ten `!` followed by ten
spaces and limit 5, the estimate is 10 > 5, yet the truncated text
(cut to 10 characters, which keeps all ten symbols) estimates to
10 + 14 = 24 > 5 + 14, so the claimed bound `limit + marker cost`
fails. -/
theorem c2_truncation_bound_counterexample :
    estimateTokens c2Text > 5
    ∧ ¬ estimateTokens (enforceTokenLimit 5 c2Text)
        ≤ 5 + estimateTokens truncationMarker := by
  refine ⟨by decide, by decide⟩

set_option maxRecDepth 400000 in
unseal pyReplace in
/-- C4 (counterexample): a caller-supplied ignore pattern `!a` is not
dropped: it is compiled verbatim by `_glob_to_regex` (where `!` is an
ordinary character), and it makes `_should_ignore` exclude the path
`!a`, which no other pattern excludes. -/
theorem c4_caller_negation_not_dropped :
    shouldIgnoreE (loadIgnorePatterns (some []) [("!a").data]) (("!a").data)
      = Except.ok true
    ∧ shouldIgnoreE (loadIgnorePatterns (some []) []) (("!a").data)
      = Except.ok false := by
  refine ⟨?_, ?_⟩ <;> rfl

/-- The input of the C6 counterexample: two double quotes, a
single-quote block around `M`, then a double quote, `a`, and three
double quotes (one python line). -/
def c6Text : List Char := [dq, dq, sq, sq, sq, 'M', sq, sq, sq, dq, 'a', dq, dq, dq]

set_option maxRecDepth 400000 in
unseal removeBlock in
/-- C6 (counterexample): normalisation is not idempotent for python.
Removing the single-quote block glues the leading double quotes onto
the trailing ones, creating a new double-quote block; the first pass
has already finished its double-quote sub-step, so it survives, and a
second pass removes it, giving normalize(normalize(x)) = empty while
normalize(x) is not. -/
theorem c6_clean_code_not_idempotent :
    cleanCode (cleanCode c6Text (("f.py").data)) (("f.py").data)
      ≠ cleanCode c6Text (("f.py").data) := by
  decide

/-- C4 (amended, provable half): a `.gitignore` line that strips to a
string starting with `!` contributes nothing to the compiled pattern
list. -/
theorem c4_gitignore_negation_dropped (line : List Char) (rest : List (List Char))
    (h : (['!']).isPrefixOf (pyStrip line) = true) :
    gitignorePatterns (line :: rest) = gitignorePatterns rest := by
  simp only [gitignorePatterns, h]
  split <;> simp

/-- C4 witness: the `.gitignore` line `!a` is dropped. -/
theorem c4_gitignore_negation_dropped_witness :
    gitignorePatterns [(("!a").data), (("b").data)] = gitignorePatterns [(("b").data)] :=
  c4_gitignore_negation_dropped (("!a").data) [(("b").data)] (by decide)

/-! Estimate lemmas for the truncation bound (C2). -/

/-- The symbol count is additive over concatenation. -/
theorem symbolCount_append (a b : List Char) :
    symbolCount (a ++ b) = symbolCount a + symbolCount b := by
  simp [symbolCount]

/-- Word runs split at a non-word character. -/
theorem wordRunsAux_append_nonword (c : Char) (ys : List Char)
    (hc : wordChar c = false) (xs : List Char) :
    ∀ b, wordRunsAux b (xs ++ c :: ys) = wordRunsAux b xs + wordRunsAux false (c :: ys) := by
  induction xs with
  | nil => intro b; simp [wordRunsAux, hc]
  | cons d xs ih =>
    intro b
    by_cases hd : wordChar d <;> simp [wordRunsAux, hd, ih] <;> omega

/-- Word runs of a prefix never exceed those of the whole string. -/
theorem wordRunsAux_take_le (s : List Char) :
    ∀ n b, wordRunsAux b (s.take n) ≤ wordRunsAux b s := by
  induction s with
  | nil => intro n b; simp
  | cons d xs ih =>
    intro n b
    cases n with
    | zero => simp [wordRunsAux]
    | succ n =>
      by_cases hd : wordChar d <;> simp [wordRunsAux, hd] <;>
        first
          | exact ih n _
          | (have hrun := ih n true; omega)

/-- The symbol count of a prefix never exceeds that of the whole
string. -/
theorem symbolCount_take_le (s : List Char) (n : Nat) :
    symbolCount (s.take n) ≤ symbolCount s := by
  have h := List.Sublist.length_le
    (List.Sublist.filter (fun c => decide (¬ wordChar c ∧ ¬ pySpace c))
      (List.take_sublist n s))
  simpa [symbolCount] using h

/-- The token estimate of a prefix never exceeds that of the whole
string. -/
theorem estimateTokens_take_le (s : List Char) (n : Nat) :
    estimateTokens (s.take n) ≤ estimateTokens s := by
  have h1 := wordRunsAux_take_le s n false
  have h2 := symbolCount_take_le s n
  simp only [estimateTokens, wordRuns]
  omega

/-- Appending the truncation marker (which begins with a newline) adds
exactly the marker's own estimate. -/
theorem estimateTokens_append_marker (xs : List Char) :
    estimateTokens (xs ++ truncationMarker)
      = estimateTokens xs + estimateTokens truncationMarker := by
  have hm : truncationMarker
      = '\n' :: (("# ... (truncated due to token limit) ...").data) := rfl
  rw [hm]
  simp only [estimateTokens, wordRuns, symbolCount_append]
  rw [wordRunsAux_append_nonword '\n' _ (by decide)]
  omega

/-- C2 (amended): the truncation step of `_process_file` never
increases the estimate beyond the original estimate plus the marker's
own cost — the proportional character cut bounds the result by the
input's estimate, not by the limit. -/
theorem c2_truncation_estimate_bound (maxTok : Nat) (s : List Char)
    (h : estimateTokens s > maxTok) :
    estimateTokens (enforceTokenLimit maxTok s)
      ≤ estimateTokens s + estimateTokens truncationMarker := by
  unfold enforceTokenLimit
  rw [if_pos h, estimateTokens_append_marker]
  have := estimateTokens_take_le s ((s.length * maxTok) / estimateTokens s)
  omega

/-- C2 witness: the amended bound at the counterexample input and
limit 5. -/
theorem c2_truncation_estimate_bound_witness :
    estimateTokens c2Text > 5
    ∧ estimateTokens (enforceTokenLimit 5 c2Text)
        ≤ estimateTokens c2Text + estimateTokens truncationMarker :=
  ⟨by decide, c2_truncation_estimate_bound 5 c2Text (by decide)⟩

/-- C8: for a processed file (supported extension, size within bounds,
non-empty normalised content), a token estimate exactly at the limit
leaves the content unmodified — no truncation, no marker — while an
estimate strictly over the limit yields the proportional prefix with
the marker appended; the branch condition is the strict `tokens >
max_token_length`. -/
theorem c8_exact_limit_not_truncated
    (maxSize maxTok : Nat) (relPath : List Char) (fsize : Nat) (content : List Char)
    (cleaned : List Char) (hcl : cleaned = cleanCode content relPath)
    (hext : ¬ lookupAssoc SUPPORTED_EXTENSIONS (String.mk (pyLower (pySplitext relPath))) = none)
    (hsz : ¬ fsize > maxSize)
    (hne : ¬ cleaned = []) :
    (estimateTokens cleaned = maxTok →
      processFile maxSize maxTok relPath fsize content =
        some (⟨fsize, estimateTokens cleaned, (pySplitlines cleaned).length⟩,
          mkSection relPath cleaned))
    ∧ (estimateTokens cleaned > maxTok →
      processFile maxSize maxTok relPath fsize content =
        some (⟨fsize, estimateTokens cleaned,
            (pySplitlines (cleaned.take ((cleaned.length * maxTok) / estimateTokens cleaned)
              ++ truncationMarker)).length⟩,
          mkSection relPath (cleaned.take ((cleaned.length * maxTok) / estimateTokens cleaned)
              ++ truncationMarker))) := by
  subst hcl
  constructor
  · intro heq
    unfold processFile enforceTokenLimit
    simp [hext, hsz, hne, heq]
  · intro hgt
    unfold processFile enforceTokenLimit
    simp [hext, hsz, hne, hgt]

set_option maxRecDepth 400000 in
unseal removeBlock in
/-- C8 witness: for the file `w.py` with body `x = 1` (estimate 3), a
limit of exactly 3 leaves the body unmodified. -/
theorem c8_exact_limit_not_truncated_witness :
    processFile 100 3 (("w.py").data) 6 (("x = 1\n").data) =
      some (⟨6, estimateTokens (("x = 1").data), (pySplitlines (("x = 1").data)).length⟩,
        mkSection (("w.py").data) (("x = 1").data)) :=
  (c8_exact_limit_not_truncated 100 3 (("w.py").data) 6 (("x = 1\n").data)
    (("x = 1").data) (by decide) (by decide) (by decide) (by decide)).1 (by decide)

/-- C9: when the normalised content estimates over the limit, the
recorded `FileStats` carry the pre-truncation token estimate (strictly
above the limit), while the recorded line count is computed from the
truncated body with the marker appended. -/
theorem c9_stats_tokens_pre_truncation
    (maxSize maxTok : Nat) (relPath : List Char) (fsize : Nat) (content : List Char)
    (cleaned : List Char) (hcl : cleaned = cleanCode content relPath)
    (hext : ¬ lookupAssoc SUPPORTED_EXTENSIONS (String.mk (pyLower (pySplitext relPath))) = none)
    (hsz : ¬ fsize > maxSize)
    (hne : ¬ cleaned = [])
    (hover : estimateTokens cleaned > maxTok) :
    processFile maxSize maxTok relPath fsize content =
      some (⟨fsize, estimateTokens cleaned,
          (pySplitlines (cleaned.take ((cleaned.length * maxTok) / estimateTokens cleaned)
            ++ truncationMarker)).length⟩,
        mkSection relPath (cleaned.take ((cleaned.length * maxTok) / estimateTokens cleaned)
            ++ truncationMarker))
    ∧ estimateTokens cleaned > maxTok := by
  subst hcl
  refine ⟨?_, hover⟩
  unfold processFile enforceTokenLimit
  simp [hext, hsz, hne, hover]

set_option maxRecDepth 400000 in
unseal removeBlock in
/-- C9 witness: for `b.py` with body `x = 1` (estimate 3) and limit 2,
the recorded tokens are 3 (pre-truncation, over the limit) and the
recorded line count (2) comes from the truncated body plus marker. -/
theorem c9_stats_tokens_pre_truncation_witness :
    processFile 100 2 (("b.py").data) 6 (("x = 1\n").data) =
      some (⟨6, estimateTokens (("x = 1").data),
          (pySplitlines ((("x = 1").data).take
              (((("x = 1").data).length * 2) / estimateTokens (("x = 1").data))
            ++ truncationMarker)).length⟩,
        mkSection (("b.py").data) ((("x = 1").data).take
              (((("x = 1").data).length * 2) / estimateTokens (("x = 1").data))
            ++ truncationMarker))
    ∧ estimateTokens (("x = 1").data) > 2 :=
  c9_stats_tokens_pre_truncation 100 2 (("b.py").data) 6 (("x = 1\n").data)
    (("x = 1").data) (by decide) (by decide) (by decide) (by decide) (by decide)

/-- C10: every emitted per-file section is wrapped in a fenced block
labelled `python`, whatever the file's extension and language tag. -/
theorem c10_fence_label_always_python
    (maxSize maxTok : Nat) (relPath : List Char) (fsize : Nat) (content : List Char)
    (st : FileStats) (sec : List Char)
    (h : processFile maxSize maxTok relPath fsize content = some (st, sec)) :
    ∃ body, sec = ("### File: ").data ++ relPath ++ ("\n```python\n").data
      ++ body ++ ("\n```\n").data := by
  unfold processFile at h
  split at h
  · exact absurd h (by simp)
  · split at h
    · exact absurd h (by simp)
    · split at h
      · exact absurd h (by simp)
      · refine ⟨enforceTokenLimit maxTok (cleanCode content relPath), ?_⟩
        have := (Option.some.injEq _ _).mp h
        have hs : sec = mkSection relPath (enforceTokenLimit maxTok (cleanCode content relPath)) := by
          cases this; rfl
        rw [hs]
        rfl

set_option maxRecDepth 400000 in
unseal removeBlock in
/-- C10 witness: the section of the javascript file `a.js` is fenced
as `python`. -/
theorem c10_fence_label_always_python_witness :
    ∃ body, ("### File: a.js\n```python\nvar x = 1;\n```\n").data
      = ("### File: ").data ++ (("a.js").data) ++ ("\n```python\n").data
        ++ body ++ ("\n```\n").data :=
  c10_fence_label_always_python 100 100 (("a.js").data) 11 (("var x = 1;\n").data)
    ⟨11, 5, 1⟩ (("### File: a.js\n```python\nvar x = 1;\n```\n").data) (by decide)

/-- Every record produced under a prefix has a path that strictly
extends that prefix. -/
theorem flattenTree_path_extends (ign : List String → Bool)
    (proc : List Char → Nat → List Char → Option (FileStats × List Char)) :
    ∀ (n : Nat) (t : FSTree), sizeOf t ≤ n →
      ∀ (pref : List String) r, r ∈ flattenTree ign proc pref t →
        pref <+: r.1 ∧ pref.length < r.1.length := by
  intro n
  induction n with
  | zero => intro t ht; cases t with
    | node files dirs => simp at ht
  | succ n ih =>
    intro t ht pref r hr
    cases t with
    | node files dirs =>
      rw [flattenTree] at hr
      simp only [List.mem_append] at hr
      rcases hr with hf | hd
      · rcases List.mem_filterMap.mp hf with ⟨f, _, hmap⟩
        split at hmap
        · simp at hmap
        · rcases Option.map_eq_some'.mp hmap with ⟨v, _, rfl⟩
          constructor
          · exact ⟨[f.1], rfl⟩
          · simp
      · rcases List.mem_flatMap.mp hd with ⟨⟨⟨d, sub⟩, hdm⟩, _, hrec⟩
        have hsz : sizeOf sub ≤ n := by
          have h1 := List.sizeOf_lt_of_mem
            (List.mem_of_mem_filter ((List.mem_insertionSort _).mp hdm))
          simp at h1 ht
          omega
        have := ih sub hsz (pref ++ [d]) r hrec
        refine ⟨List.IsPrefix.trans ⟨[d], rfl⟩ this.1, ?_⟩
        have h2 := this.2
        simp at h2
        omega

/-- C7: a directory whose path the ignore predicate matches contributes
nothing to the traversal result: no produced record's path lies in its
subtree (not even at the directory path itself), whatever the files
inside it would have produced. -/
theorem c7_pruned_directory_contributes_nothing
    (ign : List String → Bool)
    (proc : List Char → Nat → List Char → Option (FileStats × List Char))
    (pref : List String) (files : List (String × Nat × List Char))
    (dirs : List (String × FSTree)) (d : String)
    (hig : ign (pref ++ [d]) = true) :
    ∀ r ∈ flattenTree ign proc pref (FSTree.node files dirs),
      ¬ (pref ++ [d]) <+: r.1 := by
  intro r hr hpre
  rw [flattenTree] at hr
  simp only [List.mem_append] at hr
  rcases hr with hf | hd
  · rcases List.mem_filterMap.mp hf with ⟨f, _, hmap⟩
    split at hmap
    · simp at hmap
    · rcases Option.map_eq_some'.mp hmap with ⟨v, _, rfl⟩
      rename_i hkeep
      have heq : pref ++ [d] = pref ++ [f.1] :=
        List.IsPrefix.eq_of_length hpre (by simp)
      have : d = f.1 := by
        have h3 := List.append_cancel_left heq
        simpa using h3
      rw [this] at hig
      exact absurd hig (by assumption)
  · rcases List.mem_flatMap.mp hd with ⟨⟨⟨d2, sub⟩, hdm⟩, _, hrec⟩
    have hkeep : ign (pref ++ [d2]) = false := by
      have := List.mem_filter.mp ((List.mem_insertionSort _).mp hdm)
      simpa using this.2
    have hext := (flattenTree_path_extends ign proc (sizeOf sub) sub le_rfl
      (pref ++ [d2]) r hrec).1
    have heq : pref ++ [d] = pref ++ [d2] := by
      have h1 := List.prefix_of_prefix_length_le hpre hext (by simp)
      exact List.IsPrefix.eq_of_length h1 (by simp)
    have : d = d2 := by
      have := List.append_cancel_left heq
      simpa using this
    rw [this, hkeep] at hig
    exact Bool.false_ne_true hig

set_option maxRecDepth 400000 in
unseal removeBlock flattenTree in
/-- C7 witness: with the predicate ignoring exactly `temp`, the walk of
a root holding `x.py` and `temp/t.py` produces the single record for
`x.py`, whose path does not lie under `temp`. -/
theorem c7_pruned_directory_contributes_nothing_witness :
    ¬ (([] : List String) ++ ["temp"]) <+:
      ((["x.py"], (⟨4, 3, 1⟩ : FileStats),
        ("### File: x.py\n```python\na = 1\n```\n").data) :
          List String × FileStats × List Char).1 :=
  c7_pruned_directory_contributes_nothing
    (fun segs => decide (segs = ["temp"])) (processFile 100 100) []
    [(("x.py"), 4, ("a = 1\n").data)]
    [(("temp"), FSTree.node [(("t.py"), 4, ("z = 3\n").data)] [])]
    ("temp") (by decide)
    ((["x.py"], (⟨4, 3, 1⟩ : FileStats),
        ("### File: x.py\n```python\na = 1\n```\n").data))
    (by decide)

/-- Inserting a fresh key appends it. -/
theorem dictInsert_new (k : List Char) (v : FileStats)
    (d : List (List Char × FileStats)) (h : k ∉ d.map (fun p => p.1)) :
    dictInsert k v d = d ++ [(k, v)] := by
  unfold dictInsert
  rw [if_neg]
  simp only [List.any_eq_true, decide_eq_true_eq, not_exists]
  intro p hp
  exact h (hp.2 ▸ List.mem_map_of_mem (fun q => q.1) hp.1)

/-- With pairwise-distinct keys, accumulating the stats dict is just
appending the `(path, stats)` pairs in traversal order. -/
theorem fileStatsDict_eq_map_aux (recs : List (List String × FileStats × List Char)) :
    ∀ acc : List (List Char × FileStats),
      (acc.map (fun p => p.1) ++ recs.map (fun r => relSegs r.1)).Nodup →
      recs.foldl (fun d r => dictInsert (relSegs r.1) r.2.1 d) acc
        = acc ++ recs.map (fun r => (relSegs r.1, r.2.1)) := by
  induction recs with
  | nil => intro acc _; simp
  | cons r rest ih =>
    intro acc h
    simp only [List.foldl_cons]
    have hdisj := List.disjoint_of_nodup_append h
    have hnot : relSegs r.1 ∉ acc.map (fun p => p.1) := by
      intro hmem
      exact hdisj hmem (List.mem_map_of_mem _ (List.mem_cons_self r rest))
    rw [dictInsert_new _ _ _ hnot]
    have hih := ih (acc ++ [(relSegs r.1, r.2.1)]) (by
      simp only [List.map_append, List.map_cons] at h ⊢
      simpa [List.append_assoc] using h)
    rw [hih]
    simp

/-- `fileStatsDict` on a duplicate-free traversal result. -/
theorem fileStatsDict_eq_map (recs : List (List String × FileStats × List Char))
    (h : (recs.map (fun r => relSegs r.1)).Nodup) :
    fileStatsDict recs = recs.map (fun r => (relSegs r.1, r.2.1)) := by
  unfold fileStatsDict
  simpa using fileStatsDict_eq_map_aux recs [] (by simpa using h)

/-- With pairwise-distinct keys, the dict lookup of a stored pair
returns its value. -/
theorem dictGet_of_mem (d : List (List Char × FileStats)) (p : List Char)
    (st : FileStats) (hmem : (p, st) ∈ d) (hnd : (d.map (fun q => q.1)).Nodup) :
    dictGet d p = st := by
  induction d with
  | nil => simp at hmem
  | cons q rest ih =>
    simp only [List.map_cons, List.nodup_cons] at hnd
    rcases List.mem_cons.mp hmem with rfl | hrest
    · unfold dictGet
      simp [List.find?]
    · have hq : ¬ q.1 = p := by
        intro hk
        exact hnd.1 (hk ▸ List.mem_map_of_mem (fun z => z.1) hrest)
      unfold dictGet at ih ⊢
      rw [List.find?]
      simp only [decide_eq_false hq]
      exact ih hrest hnd.2

/-- The structure loop emits the file line of every listed key. -/
theorem structLoop_mem (d : List (List Char × FileStats)) (k : List Char) :
    ∀ (ks : List (List Char)) (last : Option (List Char)), k ∈ ks →
      fileEntryLine k (dictGet d k) ∈ structLoop d ks last := by
  intro ks
  induction ks with
  | nil => intro last h; simp at h
  | cons k0 rest ih =>
    intro last h
    rw [structLoop]
    rcases List.mem_cons.mp h with rfl | hrest
    · simp
    · simp only [List.mem_append, List.mem_cons]
      exact Or.inr (Or.inr (ih _ hrest))

/-- C5: on a traversal result with pairwise-distinct relative paths,
every produced record — whose section appears in the Source Code part —
has its file line, annotated with exactly its recorded line and token
counts, among the Project Structure lines, and the four Project Summary
totals are the file count and the exact sums of the per-file line,
token and size values over all included files. -/
theorem c5_structure_and_summary_consistent (ign : List String → Bool)
    (proc : List Char → Nat → List Char → Option (FileStats × List Char))
    (pref : List String) (t : FSTree)
    (hnd : ((flattenTree ign proc pref t).map (fun r => relSegs r.1)).Nodup) :
    (∀ r ∈ flattenTree ign proc pref t,
      fileEntryLine (relSegs r.1) r.2.1
        ∈ structureLines (fileStatsDict (flattenTree ign proc pref t)))
    ∧ generateSummary (fileStatsDict (flattenTree ign proc pref t))
      = ("## Project Summary\n\n- Total files processed: ").data
        ++ natChars (flattenTree ign proc pref t).length
        ++ ("\n- Total lines of code: ").data
        ++ natChars (((flattenTree ign proc pref t).map (fun r => r.2.1.lines)).sum)
        ++ ("\n- Estimated total tokens: ").data
        ++ natChars (((flattenTree ign proc pref t).map (fun r => r.2.1.tokens)).sum)
        ++ ("\n- Total size: ").data
        ++ kbOneDecimal (((flattenTree ign proc pref t).map (fun r => r.2.1.size)).sum)
        ++ (" KB\n").data := by
  have hdict := fileStatsDict_eq_map (flattenTree ign proc pref t) hnd
  have hkeys : ((fileStatsDict (flattenTree ign proc pref t)).map
      (fun q => q.1)).Nodup := by
    rw [hdict, List.map_map]
    exact hnd
  constructor
  · intro r hr
    have hpair : (relSegs r.1, r.2.1) ∈ fileStatsDict (flattenTree ign proc pref t) := by
      rw [hdict]
      exact List.mem_map_of_mem _ hr
    have hget := dictGet_of_mem _ _ _ hpair hkeys
    have hk : relSegs r.1 ∈ List.insertionSort (fun a b => a ≤ b)
        ((fileStatsDict (flattenTree ign proc pref t)).map (fun q => q.1)) := by
      rw [List.mem_insertionSort _]
      exact List.mem_map_of_mem _ hpair
    have := structLoop_mem (fileStatsDict (flattenTree ign proc pref t))
      (relSegs r.1) _ none hk
    rw [hget] at this
    exact this
  · unfold generateSummary
    rw [hdict]
    simp [List.map_map, Function.comp_def]

set_option maxRecDepth 400000 in
unseal removeBlock flattenTree in
/-- C5 witness: the consistency property at a concrete one-file tree
with an ignored sibling directory. -/
theorem c5_structure_and_summary_consistent_witness :
    (∀ r ∈ flattenTree (fun segs => decide (segs = ["temp"])) (processFile 100 100) []
        (FSTree.node [(("main.py"), 10, ("x = 1\n").data)]
          [(("temp"), FSTree.node [(("t.py"), 4, ("z = 3\n").data)] [])]),
      fileEntryLine (relSegs r.1) r.2.1
        ∈ structureLines (fileStatsDict (flattenTree
            (fun segs => decide (segs = ["temp"])) (processFile 100 100) []
            (FSTree.node [(("main.py"), 10, ("x = 1\n").data)]
              [(("temp"), FSTree.node [(("t.py"), 4, ("z = 3\n").data)] [])]))))
    ∧ generateSummary (fileStatsDict (flattenTree
          (fun segs => decide (segs = ["temp"])) (processFile 100 100) []
          (FSTree.node [(("main.py"), 10, ("x = 1\n").data)]
            [(("temp"), FSTree.node [(("t.py"), 4, ("z = 3\n").data)] [])])))
      = ("## Project Summary\n\n- Total files processed: ").data
        ++ natChars (flattenTree (fun segs => decide (segs = ["temp"])) (processFile 100 100) []
            (FSTree.node [(("main.py"), 10, ("x = 1\n").data)]
              [(("temp"), FSTree.node [(("t.py"), 4, ("z = 3\n").data)] [])])).length
        ++ ("\n- Total lines of code: ").data
        ++ natChars (((flattenTree (fun segs => decide (segs = ["temp"])) (processFile 100 100) []
            (FSTree.node [(("main.py"), 10, ("x = 1\n").data)]
              [(("temp"), FSTree.node [(("t.py"), 4, ("z = 3\n").data)] [])])).map
                (fun r => r.2.1.lines)).sum)
        ++ ("\n- Estimated total tokens: ").data
        ++ natChars (((flattenTree (fun segs => decide (segs = ["temp"])) (processFile 100 100) []
            (FSTree.node [(("main.py"), 10, ("x = 1\n").data)]
              [(("temp"), FSTree.node [(("t.py"), 4, ("z = 3\n").data)] [])])).map
                (fun r => r.2.1.tokens)).sum)
        ++ ("\n- Total size: ").data
        ++ kbOneDecimal (((flattenTree (fun segs => decide (segs = ["temp"])) (processFile 100 100) []
            (FSTree.node [(("main.py"), 10, ("x = 1\n").data)]
              [(("temp"), FSTree.node [(("t.py"), 4, ("z = 3\n").data)] [])])).map
                (fun r => r.2.1.size)).sum)
        ++ (" KB\n").data :=
  c5_structure_and_summary_consistent (fun segs => decide (segs = ["temp"]))
    (processFile 100 100) []
    (FSTree.node [(("main.py"), 10, ("x = 1\n").data)]
      [(("temp"), FSTree.node [(("t.py"), 4, ("z = 3\n").data)] [])])
    (by decide)

/-! Blank-line cleanup is idempotent (for the C6 amendment). -/

/-- Lines produced by splitting contain no newline. -/
theorem pySplitlines_no_newline (s : List Char) :
    ∀ l ∈ pySplitlines s, '\n' ∉ l := by
  induction s with
  | nil => simp [pySplitlines]
  | cons c rest ih =>
    intro l hl
    rw [pySplitlines] at hl
    by_cases hc : c = '\n'
    · rw [if_pos hc] at hl
      rcases List.mem_cons.mp hl with rfl | h2
      · simp
      · exact ih l h2
    · rw [if_neg hc] at hl
      revert hl
      split
      · intro hl
        rcases List.mem_cons.mp hl with rfl | h2
        · simpa using fun h => hc h.symm
        · simp at h2
      · rename_i l0 ls hsplit
        intro hl
        rcases List.mem_cons.mp hl with rfl | h2
        · intro hmem
          rcases List.mem_cons.mp hmem with h3 | h3
          · exact hc h3.symm
          · exact ih l0 (hsplit ▸ List.mem_cons_self l0 ls) h3
        · exact ih l (hsplit ▸ List.mem_cons_of_mem l0 h2)

/-- Splitting a newline-free, non-empty line yields just that line. -/
theorem pySplitlines_single (l : List Char) (hnl : '\n' ∉ l) (hne : l ≠ []) :
    pySplitlines l = [l] := by
  induction l with
  | nil => exact absurd rfl hne
  | cons c rest ih =>
    have hc : ¬ c = '\n' := fun h => hnl (h ▸ List.mem_cons_self c rest)
    rw [pySplitlines, if_neg hc]
    by_cases hr : rest = []
    · subst hr
      simp [pySplitlines]
    · rw [ih (fun h => hnl (List.mem_cons_of_mem c h)) hr]

/-- Splitting after a newline-free first line. -/
theorem pySplitlines_append_cons (l t : List Char) (hnl : '\n' ∉ l) :
    pySplitlines (l ++ '\n' :: t) = l :: pySplitlines t := by
  induction l with
  | nil => simp [pySplitlines]
  | cons c rest ih =>
    have hc : ¬ c = '\n' := fun h => hnl (h ▸ List.mem_cons_self c rest)
    rw [List.cons_append, pySplitlines, if_neg hc,
      ih (fun h => hnl (List.mem_cons_of_mem c h))]

/-- Splitting inverts joining for newline-free, non-empty lines. -/
theorem pySplitlines_joinNl (ls : List (List Char))
    (h : ∀ l ∈ ls, '\n' ∉ l ∧ l ≠ []) : pySplitlines (joinNl ls) = ls := by
  induction ls with
  | nil => simp [joinNl, pySplitlines]
  | cons l rest ih =>
    cases rest with
    | nil =>
      have := h l (List.mem_cons_self l [])
      rw [joinNl]
      exact pySplitlines_single l this.1 this.2
    | cons l2 rest2 =>
      rw [joinNl, pySplitlines_append_cons l _ (h l (List.mem_cons_self _ _)).1,
        ih (fun a ha => h a (List.mem_cons_of_mem l ha))]
      simp

/-- `rstrip` is idempotent. -/
theorem pyRstrip_idem (l : List Char) : pyRstrip (pyRstrip l) = pyRstrip l := by
  unfold pyRstrip
  rw [List.reverse_reverse]
  congr 1
  induction l.reverse with
  | nil => simp
  | cons c rest ih =>
    by_cases hc : pySpace c
    · simpa [List.dropWhile, hc] using ih
    · simp [List.dropWhile, hc]

/-- `rstrip` keeps a sublist of the characters. -/
theorem pyRstrip_sublist (l : List Char) : (pyRstrip l).Sublist l := by
  unfold pyRstrip
  have h := List.dropWhile_sublist (l := l.reverse) (p := pySpace)
  have := List.Sublist.reverse h
  simpa using this

/-- A string strips to empty exactly when it is all whitespace. -/
theorem pyStrip_eq_nil_iff (l : List Char) :
    pyStrip l = [] ↔ ∀ x ∈ l, pySpace x := by
  unfold pyStrip pyRstrip pyLstrip
  constructor
  · intro h x hx
    rw [List.reverse_eq_nil_iff, List.dropWhile_eq_nil_iff] at h
    rcases (List.takeWhile_append_dropWhile (p := pySpace) (l := l)) ▸ hx with hx2
    rcases List.mem_append.mp hx2 with h1 | h1
    · exact List.mem_takeWhile_imp h1
    · exact h x (by simpa using h1)
  · intro h
    have h1 : l.dropWhile pySpace = [] := List.dropWhile_eq_nil_iff.mpr h
    rw [h1]
    simp

/-- Stripping after `rstrip` is empty exactly when stripping the line
itself is. -/
theorem pyStrip_pyRstrip_eq_nil_iff (l : List Char) :
    pyStrip (pyRstrip l) = [] ↔ pyStrip l = [] := by
  rw [pyStrip_eq_nil_iff, pyStrip_eq_nil_iff]
  constructor
  · intro h x hx
    have hsplit := List.takeWhile_append_dropWhile (p := pySpace) (l := l.reverse)
    have hx2 : x ∈ l.reverse := by simpa using hx
    rw [← hsplit] at hx2
    rcases List.mem_append.mp hx2 with h1 | h1
    · exact List.mem_takeWhile_imp h1
    · exact h x (by unfold pyRstrip; simpa using h1)
  · intro h x hx
    exact h x (List.Sublist.mem hx (pyRstrip_sublist l))

/-- The blank-line cleanup of `_clean_code` is idempotent. -/
theorem cleanLines_idem (s : List Char) : cleanLines (cleanLines s) = cleanLines s := by
  unfold cleanLines
  set ls := ((pySplitlines s).filter (fun l => pyStrip l ≠ [])).map pyRstrip with hls
  have hmem : ∀ l ∈ ls, '\n' ∉ l ∧ l ≠ [] := by
    intro l hl
    rcases List.mem_map.mp hl with ⟨l0, hl0, rfl⟩
    have hfil := List.mem_filter.mp hl0
    have hnl : '\n' ∉ l0 := pySplitlines_no_newline s l0 hfil.1
    have hns : pyStrip l0 ≠ [] := by simpa using hfil.2
    refine ⟨fun h => hnl (List.Sublist.mem h (pyRstrip_sublist l0)), ?_⟩
    intro h
    have : pyStrip (pyRstrip l0) ≠ [] := fun h2 =>
      hns ((pyStrip_pyRstrip_eq_nil_iff l0).mp h2)
    rw [h] at this
    exact this rfl
  rw [pySplitlines_joinNl ls hmem]
  have hfil : ls.filter (fun l => pyStrip l ≠ []) = ls := by
    rw [List.filter_eq_self]
    intro l hl
    rcases List.mem_map.mp hl with ⟨l0, hl0, rfl⟩
    have hfil := List.mem_filter.mp hl0
    have hns : pyStrip l0 ≠ [] := by simpa using hfil.2
    simpa using fun h2 => hns ((pyStrip_pyRstrip_eq_nil_iff l0).mp h2)
  rw [hfil, hls]
  congr 1
  rw [List.map_map]
  exact (List.map_congr_left (fun l _ => pyRstrip_idem l)).symm ▸ rfl


/-- C6 (amended): normalisation is idempotent whenever the file's
language tag has no comment grammar (unknown tags and the grammar-less
supported tags), because it then consists of the blank-line cleanup
alone; the python counterexample shows this fails for tags whose
grammar has several block patterns. -/
theorem c6_clean_code_idempotent_without_grammar (x path : List Char)
    (h : grammarForPath path = none) :
    cleanCode (cleanCode x path) path = cleanCode x path := by
  unfold cleanCode
  rw [h]
  exact cleanLines_idem x

/-- C6 witness: idempotence at a concrete text under the `text` tag
(`notes.txt`). -/
theorem c6_clean_code_idempotent_without_grammar_witness :
    cleanCode (cleanCode (("a  \n\nb # x\n").data) (("notes.txt").data))
        (("notes.txt").data)
      = cleanCode (("a  \n\nb # x\n").data) (("notes.txt").data) :=
  c6_clean_code_idempotent_without_grammar (("a  \n\nb # x\n").data)
    (("notes.txt").data) (by decide)


/-! ## C3: compiled patterns never fail to compile

The proof that `_should_ignore` never raises: every string
`_glob_to_regex` can produce is accepted by the regex parser.  First the
five `str.replace` calls are characterised as a single recursive
translation (`globBody`), then every `globBody` output (with the
directory suffix and the anchoring prefix the source adds) is shown to
parse. -/

/-- The escape token of a single character. -/
def escTok (c : Char) : List Char :=
  if c ∈ specialChars then ['\\', c] else [c]

/-- `pyEscape` after unescaping `*`. -/
def esc1d : List Char → List Char
  | [] => []
  | '*' :: p => '*' :: esc1d p
  | c :: p => escTok c ++ esc1d p

/-- `esc1d` after unescaping `?`. -/
def esc2d : List Char → List Char
  | [] => []
  | '*' :: p => '*' :: esc2d p
  | '?' :: p => '?' :: esc2d p
  | c :: p => escTok c ++ esc2d p

/-- `esc2d` after replacing `**` by `.*` (leftmost pairs). -/
def esc3d : List Char → List Char
  | [] => []
  | '*' :: '*' :: p => '.' :: '*' :: esc3d p
  | '*' :: p => '*' :: esc3d p
  | '?' :: p => '?' :: esc3d p
  | c :: p => escTok c ++ esc3d p

/-- `esc3d` after replacing every remaining `*` by `[^/]*`. -/
def esc4d : List Char → List Char
  | [] => []
  | '*' :: '*' :: p => '.' :: '[' :: '^' :: '/' :: ']' :: '*' :: esc4d p
  | '*' :: p => '[' :: '^' :: '/' :: ']' :: '*' :: esc4d p
  | '?' :: p => '?' :: esc4d p
  | c :: p => escTok c ++ esc4d p

/-- The glob body after all five replaces: `**` pairs become `.[^/]*`,
remaining `*` become `[^/]*`, `?` becomes `[^/]`, everything else is an
escaped or plain literal. -/
def globBody : List Char → List Char
  | [] => []
  | '*' :: '*' :: p => '.' :: '[' :: '^' :: '/' :: ']' :: '*' :: globBody p
  | '*' :: p => '[' :: '^' :: '/' :: ']' :: '*' :: globBody p
  | '?' :: p => '[' :: '^' :: '/' :: ']' :: globBody p
  | c :: p => escTok c ++ globBody p


/-- `re.escape` examined one character at a time. -/
theorem pyEscape_cons (c : Char) (p : List Char) :
    pyEscape (c :: p) = escTok c ++ pyEscape p := by
  simp [pyEscape, escTok]

/-- Escaped text never starts with a bare `*`. -/
theorem star_not_prefix_pyEscape (p : List Char) : ¬ (['*'] <+: pyEscape p) := by
  cases p with
  | nil => simp [pyEscape]
  | cons c p =>
    rw [pyEscape_cons]
    by_cases hcs : c ∈ specialChars
    · simp [escTok, hcs, List.cons_prefix_cons]
    · have h2 : ¬ c = '*' := fun h => hcs (h ▸ by decide)
      simp [escTok, hcs, List.cons_prefix_cons, Ne.symm h2]

/-- Step 1 of `_glob_to_regex`: unescaping `*`. -/
theorem chain1_eq (p : List Char) :
    pyReplace ['\\', '*'] ['*'] (pyEscape p) = esc1d p := by
  induction p using esc1d.induct with
  | case1 => simp [pyEscape, pyReplace, esc1d]
  | case2 p ih =>
    rw [pyEscape_cons, show escTok '*' = ['\\', '*'] by decide, List.cons_append,
      List.cons_append, List.nil_append, pyReplace]
    rw [if_pos (by simp [List.isPrefixOf])]
    simp [ih, esc1d]
  | case3 c p hc ih =>
    have hne2 : ¬ '*' = c := fun h => hc h.symm
    rw [pyEscape_cons, esc1d.eq_3 c p hc]
    by_cases hcs : c ∈ specialChars
    · rw [show escTok c = ['\\', c] by simp [escTok, hcs], List.cons_append,
        List.cons_append, List.nil_append, pyReplace]
      rw [if_neg (by simp [List.isPrefixOf, hne2])]
      rw [pyReplace]
      rw [if_neg (by
        simp only [List.isPrefixOf_iff_prefix, List.cons_prefix_cons, ne_eq]
        rintro ⟨-, rfl, hpre⟩
        exact star_not_prefix_pyEscape p hpre)]
      rw [ih]
      simp [escTok, hcs]
    · rw [show escTok c = [c] by simp [escTok, hcs], List.cons_append, List.nil_append,
        pyReplace]
      have hcb2 : ¬ '\\' = c := fun h => hcs (h.symm ▸ by decide)
      rw [if_neg (by simp [List.isPrefixOf, hcb2])]
      rw [ih]
      simp [escTok, hcs]

/-- Step-1 output never starts with a bare `?`. -/
theorem quest_not_prefix_esc1d (p : List Char) : ¬ (['?'] <+: esc1d p) := by
  induction p using esc1d.induct with
  | case1 => simp [esc1d]
  | case2 p _ => simp [esc1d, List.cons_prefix_cons]
  | case3 c p hc _ =>
    rw [esc1d.eq_3 c p hc]
    by_cases hcs : c ∈ specialChars
    · simp [escTok, hcs, List.cons_prefix_cons]
    · have h2 : ¬ c = '?' := fun h => hcs (h ▸ by decide)
      simp [escTok, hcs, List.cons_prefix_cons, Ne.symm h2]

/-- Step 2 of `_glob_to_regex`: unescaping `?`. -/
theorem chain2_eq (p : List Char) :
    pyReplace ['\\', '?'] ['?'] (esc1d p) = esc2d p := by
  induction p using esc2d.induct with
  | case1 => simp [esc1d, pyReplace, esc2d]
  | case2 p ih =>
    rw [esc1d, pyReplace]
    rw [if_neg (by simp [List.isPrefixOf])]
    simp [ih, esc2d]
  | case3 p ih =>
    rw [esc1d.eq_3 _ _ (by decide), show escTok '?' = ['\\', '?'] by decide,
      List.cons_append, List.cons_append, List.nil_append, pyReplace]
    rw [if_pos (by simp [List.isPrefixOf])]
    simp [ih, esc2d]
  | case4 c p hcs2 hcq ih =>
    have hq2 : ¬ '?' = c := fun h => hcq h.symm
    rw [esc1d.eq_3 c p hcs2, esc2d.eq_4 c p hcs2 hcq]
    by_cases hcs : c ∈ specialChars
    · rw [show escTok c = ['\\', c] by simp [escTok, hcs], List.cons_append,
        List.cons_append, List.nil_append, pyReplace]
      rw [if_neg (by simp [List.isPrefixOf, hq2])]
      rw [pyReplace]
      rw [if_neg (by
        simp only [List.isPrefixOf_iff_prefix, List.cons_prefix_cons, ne_eq]
        rintro ⟨-, rfl, hpre⟩
        exact quest_not_prefix_esc1d p hpre)]
      rw [ih]
      simp [escTok, hcs]
    · rw [show escTok c = [c] by simp [escTok, hcs], List.cons_append, List.nil_append,
        pyReplace]
      have hcb2 : ¬ '\\' = c := fun h => hcs (h.symm ▸ by decide)
      rw [if_neg (by simp [List.isPrefixOf, hcb2])]
      rw [ih]
      simp [escTok, hcs]

/-- Step-2 output starts with `*` only if the glob did. -/
theorem star_not_prefix_esc2d (p : List Char)
    (h : ∀ q, p = '*' :: q → False) : ¬ (['*'] <+: esc2d p) := by
  cases p with
  | nil => simp [esc2d]
  | cons c p =>
    by_cases hcq : c = '?'
    · subst hcq
      simp [esc2d, List.cons_prefix_cons]
    · by_cases hcst : c = '*'
      · exact absurd (hcst ▸ rfl) (fun hh => h p hh)
      · rw [esc2d.eq_4 c p (fun hh => hcst hh) (fun hh => hcq hh)]
        by_cases hcs : c ∈ specialChars
        · simp [escTok, hcs, List.cons_prefix_cons]
        · have h2 : ¬ c = '*' := hcst
          simp [escTok, hcs, List.cons_prefix_cons, Ne.symm h2]

/-- Step 3 of `_glob_to_regex`: pairing `**` into `.*`. -/
theorem chain3_eq (p : List Char) :
    pyReplace ['*', '*'] ['.', '*'] (esc2d p) = esc3d p := by
  induction p using esc3d.induct with
  | case1 => simp [esc2d, pyReplace, esc3d]
  | case2 p ih =>
    rw [esc2d, esc2d, pyReplace]
    rw [if_pos (by simp [List.isPrefixOf])]
    simp [ih, esc3d]
  | case3 p hns ih =>
    rw [esc2d, pyReplace]
    rw [if_neg (by
      simp only [List.isPrefixOf_iff_prefix, List.cons_prefix_cons, ne_eq]
      rintro ⟨-, -, hpre⟩
      exact star_not_prefix_esc2d p hns hpre)]
    rw [ih, esc3d.eq_3 p hns]
  | case4 p ih =>
    rw [esc2d, pyReplace]
    rw [if_neg (by simp [List.isPrefixOf])]
    simp [ih, esc3d]
  | case5 c p hpair hcst hcq ih =>
    have hs2 : ¬ '*' = c := fun h => hcst h.symm
    rw [esc2d.eq_4 c p hcst hcq, esc3d.eq_5 c p hpair hcst hcq]
    by_cases hcs : c ∈ specialChars
    · rw [show escTok c = ['\\', c] by simp [escTok, hcs], List.cons_append,
        List.cons_append, List.nil_append, pyReplace]
      rw [if_neg (by simp [List.isPrefixOf])]
      rw [pyReplace]
      rw [if_neg (by simp [List.isPrefixOf, hs2])]
      rw [ih]
      simp [escTok, hcs]
    · rw [show escTok c = [c] by simp [escTok, hcs], List.cons_append, List.nil_append,
        pyReplace]
      rw [if_neg (by simp [List.isPrefixOf, hs2])]
      rw [ih]
      simp [escTok, hcs]

/-- Copying characters that a one-character needle cannot match. -/
theorem pyReplace_single_skip (a : Char) (repl : List Char) (xs : List Char)
    (h : a ∉ xs) (ys : List Char) :
    pyReplace [a] repl (xs ++ ys) = xs ++ pyReplace [a] repl ys := by
  induction xs with
  | nil => simp
  | cons c xs ih =>
    rw [List.cons_append, pyReplace]
    rw [if_neg (by
      simp only [List.isPrefixOf_iff_prefix, List.cons_prefix_cons, ne_eq]
      rintro ⟨-, rfl, -⟩
      exact h (List.mem_cons_self _ _))]
    rw [ih (fun hm => h (List.mem_cons_of_mem c hm))]
    simp

/-- Matching a one-character needle at the head. -/
theorem pyReplace_single_hit (a : Char) (repl : List Char) (ys : List Char) :
    pyReplace [a] repl (a :: ys) = repl ++ pyReplace [a] repl ys := by
  rw [pyReplace]
  rw [if_pos (by simp [List.isPrefixOf])]
  rfl

/-- Step 4 of `_glob_to_regex`: rewriting every remaining `*` (also the
one inside the freshly produced `.*`) into `[^/]*`. -/
theorem chain4_eq (p : List Char) :
    pyReplace ['*'] ['[', '^', '/', ']', '*'] (esc3d p) = esc4d p := by
  induction p using esc4d.induct with
  | case1 => simp [esc3d, pyReplace, esc4d]
  | case2 p ih =>
    rw [esc3d, show ('.' : Char) :: '*' :: esc3d p = ['.'] ++ '*' :: esc3d p from rfl,
      pyReplace_single_skip _ _ _ (by decide), pyReplace_single_hit]
    simp [ih, esc4d]
  | case3 p hns ih =>
    rw [esc3d.eq_3 p hns, pyReplace_single_hit]
    simp [ih, esc4d.eq_3 p hns]
  | case4 p ih =>
    rw [esc3d, show ('?' : Char) :: esc3d p = ['?'] ++ esc3d p from rfl,
      pyReplace_single_skip _ _ _ (by decide)]
    simp [ih, esc4d]
  | case5 c p hpair hcst hcq ih =>
    rw [esc3d.eq_5 c p hpair hcst hcq, esc4d.eq_5 c p hpair hcst hcq,
      pyReplace_single_skip _ _ (escTok c) (by
        by_cases hcs : c ∈ specialChars <;> simp [escTok, hcs, Ne.symm hcst] <;>
          exact fun h => hcst h.symm)]
    rw [ih]

/-- Step 5 of `_glob_to_regex`: rewriting `?` into `[^/]`. -/
theorem chain5_eq (p : List Char) :
    pyReplace ['?'] ['[', '^', '/', ']'] (esc4d p) = globBody p := by
  induction p using globBody.induct with
  | case1 => simp [esc4d, pyReplace, globBody]
  | case2 p ih =>
    rw [esc4d, show ('.' : Char) :: '[' :: '^' :: '/' :: ']' :: '*' :: esc4d p
        = ['.', '[', '^', '/', ']', '*'] ++ esc4d p from rfl,
      pyReplace_single_skip _ _ _ (by decide)]
    simp [ih, globBody]
  | case3 p hns ih =>
    rw [esc4d.eq_3 p hns, show ('[' : Char) :: '^' :: '/' :: ']' :: '*' :: esc4d p
        = ['[', '^', '/', ']', '*'] ++ esc4d p from rfl,
      pyReplace_single_skip _ _ _ (by decide)]
    simp [ih, globBody.eq_3 p hns]
  | case4 p ih =>
    rw [esc4d, pyReplace_single_hit]
    simp [ih, globBody]
  | case5 c p hpair hcst hcq ih =>
    rw [esc4d.eq_5 c p hpair hcst hcq, globBody.eq_5 c p hpair hcst hcq,
      pyReplace_single_skip _ _ (escTok c) (by
        by_cases hcs : c ∈ specialChars <;> simp [escTok, hcs, Ne.symm hcq] <;>
          exact fun h => hcq h.symm)]
    rw [ih]

/-- The five `str.replace` calls of `_glob_to_regex` amount to the
direct translation `globBody`. -/
theorem chain_eq_globBody (p : List Char) :
    pyReplace ['?'] ['[', '^', '/', ']']
      (pyReplace ['*'] ['[', '^', '/', ']', '*']
        (pyReplace ['*', '*'] ['.', '*']
          (pyReplace ['\\', '?'] ['?']
            (pyReplace ['\\', '*'] ['*'] (pyEscape p))))) = globBody p := by
  rw [chain1_eq, chain2_eq, chain3_eq, chain4_eq, chain5_eq]


/-- The shape of every `globBody` output: a concatenation of the five
emitted fragments. -/
inductive GoodBody : List Char → Prop
  | nil : GoodBody []
  | dotstar {p : List Char} : GoodBody p →
      GoodBody ('.' :: '[' :: '^' :: '/' :: ']' :: '*' :: p)
  | star {p : List Char} : GoodBody p →
      GoodBody ('[' :: '^' :: '/' :: ']' :: '*' :: p)
  | quest {p : List Char} : GoodBody p → GoodBody ('[' :: '^' :: '/' :: ']' :: p)
  | esc {c : Char} {p : List Char} : c ∈ specialChars → GoodBody p →
      GoodBody ('\\' :: c :: p)
  | plain {c : Char} {p : List Char} : c ∉ specialChars → GoodBody p →
      GoodBody (c :: p)

/-- Every translated glob body has that shape. -/
theorem globBody_good (p : List Char) : GoodBody (globBody p) := by
  induction p using globBody.induct with
  | case1 => exact GoodBody.nil
  | case2 p ih => exact GoodBody.dotstar ih
  | case3 p hns ih => rw [globBody.eq_3 p hns]; exact GoodBody.star ih
  | case4 p ih => exact GoodBody.quest ih
  | case5 c p hpair hcst hcq ih =>
    rw [globBody.eq_5 c p hpair hcst hcq]
    by_cases hcs : c ∈ specialChars
    · rw [show escTok c = ['\\', c] by simp [escTok, hcs]]
      exact GoodBody.esc hcs ih
    · rw [show escTok c = [c] by simp [escTok, hcs]]
      exact GoodBody.plain hcs ih

/-- Scanning a non-special character yields a literal token. -/
theorem scanRe_plain (c : Char) (h : c ∉ specialChars) (xs : List Char) :
    scanRe (c :: xs) = (scanRe xs).map (RTok.lit c :: ·) := by
  have h1 : c ≠ '\\' := fun hh => h (hh ▸ by decide)
  have h2 : c ≠ '[' := fun hh => h (hh ▸ by decide)
  have h3 : c ≠ '(' := fun hh => h (hh ▸ by decide)
  have h4 : c ≠ ')' := fun hh => h (hh ▸ by decide)
  have h5 : c ≠ '|' := fun hh => h (hh ▸ by decide)
  have h6 : c ≠ '.' := fun hh => h (hh ▸ by decide)
  have h7 : c ≠ '^' := fun hh => h (hh ▸ by decide)
  have h8 : c ≠ '$' := fun hh => h (hh ▸ by decide)
  have h9 : c ≠ '*' := fun hh => h (hh ▸ by decide)
  have h10 : c ≠ '?' := fun hh => h (hh ▸ by decide)
  have h11 : c ≠ '+' := fun hh => h (hh ▸ by decide)
  rw [scanRe.eq_def]
  split <;> simp_all


/-- The final `$` parses from any state at the top level. -/
theorem parse_suffix_dollar (alts cur : List Re) :
    (parseLoop none alts cur [RTok.eol]).isSome = true := by
  simp [parseLoop, atomOf]

/-- The directory-rule suffix `(?:/.*)?$` parses from any state at the
top level. -/
theorem parse_suffix_group (alts cur : List Re) :
    (parseLoop none alts cur [RTok.gopen, RTok.lit '/', RTok.dot, RTok.star,
      RTok.gclose, RTok.quest, RTok.eol]).isSome = true := by
  simp [parseLoop, atomOf, isQuant, altOfRev, seqOfRev]

/-- The anchoring prefix `(?:^|/)` preserves parseability of what
follows. -/
theorem parse_prefix_group (ts : List RTok)
    (h : ∀ alts cur, (parseLoop none alts cur ts).isSome = true)
    (alts cur : List Re) :
    (parseLoop none alts cur (RTok.gopen :: RTok.bol :: RTok.bar ::
      RTok.lit '/' :: RTok.gclose :: ts)).isSome = true := by
  have hstep : parseLoop none alts cur (RTok.gopen :: RTok.bol :: RTok.bar ::
      RTok.lit '/' :: RTok.gclose :: ts)
      = parseLoop none alts
          (altOfRev (seqOfRev [Re.lit '/'] :: [seqOfRev [Re.bol]]) :: cur) ts := by
    simp [parseLoop, atomOf]
  rw [hstep]
  exact h _ _

/-- The `^` anchor preserves parseability of what follows. -/
theorem parse_prefix_bol (ts : List RTok)
    (h : ∀ alts cur, (parseLoop none alts cur ts).isSome = true)
    (alts cur : List Re) :
    (parseLoop none alts cur (RTok.bol :: ts)).isSome = true := by
  have hstep : parseLoop none alts cur (RTok.bol :: ts)
      = parseLoop none alts (Re.bol :: cur) ts := by
    simp [parseLoop, atomOf]
  rw [hstep]
  exact h _ _

/-- Appending a well-shaped body in front of a scannable, parseable
remainder keeps the whole scannable and parseable. -/
theorem goodBody_parse_transfer {s : List Char} (hs : GoodBody s) :
    ∀ rest toks, scanRe rest = some toks →
      (∀ alts cur, (parseLoop none alts cur toks).isSome = true) →
      ∃ toks2, scanRe (s ++ rest) = some toks2 ∧
        ∀ alts cur, (parseLoop none alts cur toks2).isSome = true := by
  induction hs with
  | nil => exact fun rest toks h1 h2 => ⟨toks, h1, h2⟩
  | @dotstar p _ ih =>
    intro rest toks h1 h2
    obtain ⟨toks2, hsc, hpl⟩ := ih rest toks h1 h2
    refine ⟨RTok.dot :: RTok.cls true ['/'] :: RTok.star :: toks2, ?_, ?_⟩
    · rw [show ('.' :: '[' :: '^' :: '/' :: ']' :: '*' :: p) ++ rest
          = '.' :: '[' :: '^' :: '/' :: ']' :: '*' :: (p ++ rest) from rfl,
        show scanRe ('.' :: '[' :: '^' :: '/' :: ']' :: '*' :: (p ++ rest))
          = (((scanRe (p ++ rest)).map (RTok.star :: ·)).map
              (RTok.cls true ['/'] :: ·)).map (RTok.dot :: ·) from rfl, hsc]
      rfl
    · intro alts cur
      have hstep : parseLoop none alts cur
          (RTok.dot :: RTok.cls true ['/'] :: RTok.star :: toks2)
          = parseLoop none alts
              (Re.star (Re.cls true ['/']) :: Re.dot :: cur) toks2 := by
        simp [parseLoop, atomOf, isQuant]
      rw [hstep]
      exact hpl _ _
  | @star p _ ih =>
    intro rest toks h1 h2
    obtain ⟨toks2, hsc, hpl⟩ := ih rest toks h1 h2
    refine ⟨RTok.cls true ['/'] :: RTok.star :: toks2, ?_, ?_⟩
    · rw [show ('[' :: '^' :: '/' :: ']' :: '*' :: p) ++ rest
          = '[' :: '^' :: '/' :: ']' :: '*' :: (p ++ rest) from rfl,
        show scanRe ('[' :: '^' :: '/' :: ']' :: '*' :: (p ++ rest))
          = ((scanRe (p ++ rest)).map (RTok.star :: ·)).map
              (RTok.cls true ['/'] :: ·) from rfl, hsc]
      rfl
    · intro alts cur
      have hstep : parseLoop none alts cur
          (RTok.cls true ['/'] :: RTok.star :: toks2)
          = parseLoop none alts (Re.star (Re.cls true ['/']) :: cur) toks2 := by
        simp [parseLoop, atomOf, isQuant]
      rw [hstep]
      exact hpl _ _
  | @quest p _ ih =>
    intro rest toks h1 h2
    obtain ⟨toks2, hsc, hpl⟩ := ih rest toks h1 h2
    refine ⟨RTok.cls true ['/'] :: toks2, ?_, ?_⟩
    · rw [show ('[' :: '^' :: '/' :: ']' :: p) ++ rest
          = '[' :: '^' :: '/' :: ']' :: (p ++ rest) from rfl,
        show scanRe ('[' :: '^' :: '/' :: ']' :: (p ++ rest))
          = (scanRe (p ++ rest)).map (RTok.cls true ['/'] :: ·) from rfl, hsc]
      rfl
    · intro alts cur
      have hstep : parseLoop none alts cur (RTok.cls true ['/'] :: toks2)
          = parseLoop none alts (Re.cls true ['/'] :: cur) toks2 := by
        simp [parseLoop, atomOf]
      rw [hstep]
      exact hpl _ _
  | @esc c p hc _ ih =>
    intro rest toks h1 h2
    obtain ⟨toks2, hsc, hpl⟩ := ih rest toks h1 h2
    refine ⟨RTok.lit c :: toks2, ?_, ?_⟩
    · rw [show ('\\' :: c :: p) ++ rest = '\\' :: c :: (p ++ rest) from rfl,
        show scanRe ('\\' :: c :: (p ++ rest))
          = (scanRe (p ++ rest)).map (RTok.lit c :: ·) from rfl, hsc]
      rfl
    · intro alts cur
      have hstep : parseLoop none alts cur (RTok.lit c :: toks2)
          = parseLoop none alts (Re.lit c :: cur) toks2 := by
        simp [parseLoop, atomOf]
      rw [hstep]
      exact hpl _ _
  | @plain c p hc _ ih =>
    intro rest toks h1 h2
    obtain ⟨toks2, hsc, hpl⟩ := ih rest toks h1 h2
    refine ⟨RTok.lit c :: toks2, ?_, ?_⟩
    · rw [show (c :: p) ++ rest = c :: (p ++ rest) from rfl,
        scanRe_plain c hc, hsc]
      rfl
    · intro alts cur
      have hstep : parseLoop none alts cur (RTok.lit c :: toks2)
          = parseLoop none alts (Re.lit c :: cur) toks2 := by
        simp [parseLoop, atomOf]
      rw [hstep]
      exact hpl _ _


/-- A good body whose last character is `/` is a good body followed by
that slash. -/
theorem goodBody_getLast_slash {b : List Char} (hb : GoodBody b)
    (hl : b.getLast? = some '/') :
    ∃ b2, GoodBody b2 ∧ b = b2 ++ ['/'] := by
  induction hb with
  | nil => simp at hl
  | @dotstar p hp ih =>
    cases p with
    | nil => exact absurd hl (by decide)
    | cons x p2 =>
      have hl2 : (x :: p2).getLast? = some '/' := by
        simpa [List.getLast?_cons_cons] using hl
      obtain ⟨b2, hg, hee⟩ := ih hl2
      exact ⟨'.' :: '[' :: '^' :: '/' :: ']' :: '*' :: b2, GoodBody.dotstar hg,
        by simp [hee]⟩
  | @star p hp ih =>
    cases p with
    | nil => exact absurd hl (by decide)
    | cons x p2 =>
      have hl2 : (x :: p2).getLast? = some '/' := by
        simpa [List.getLast?_cons_cons] using hl
      obtain ⟨b2, hg, hee⟩ := ih hl2
      exact ⟨'[' :: '^' :: '/' :: ']' :: '*' :: b2, GoodBody.star hg, by simp [hee]⟩
  | @quest p hp ih =>
    cases p with
    | nil => exact absurd hl (by decide)
    | cons x p2 =>
      have hl2 : (x :: p2).getLast? = some '/' := by
        simpa [List.getLast?_cons_cons] using hl
      obtain ⟨b2, hg, hee⟩ := ih hl2
      exact ⟨'[' :: '^' :: '/' :: ']' :: b2, GoodBody.quest hg, by simp [hee]⟩
  | @esc c p hc hp ih =>
    cases p with
    | nil =>
      have hcs : c = '/' := by
        simpa [List.getLast?_cons_cons] using hl
      exact absurd (hcs ▸ hc) (by decide)
    | cons x p2 =>
      have hl2 : (x :: p2).getLast? = some '/' := by
        simpa [List.getLast?_cons_cons] using hl
      obtain ⟨b2, hg, hee⟩ := ih hl2
      exact ⟨'\\' :: c :: b2, GoodBody.esc hc hg, by simp [hee]⟩
  | @plain c p hc hp ih =>
    cases p with
    | nil =>
      have hcs : c = '/' := by simpa using hl
      exact ⟨[], GoodBody.nil, by rw [hcs]; rfl⟩
    | cons x p2 =>
      have hl2 : (x :: p2).getLast? = some '/' := by
        simpa [List.getLast?_cons_cons] using hl
      obtain ⟨b2, hg, hee⟩ := ih hl2
      exact ⟨c :: b2, GoodBody.plain hc hg, by simp [hee]⟩

/-- A good body whose first character is `/` is that slash followed by
a good body. -/
theorem goodBody_head_slash {b : List Char} (hb : GoodBody b)
    (hh : b.head? = some '/') :
    ∃ b2, GoodBody b2 ∧ b = '/' :: b2 := by
  cases hb with
  | nil => simp at hh
  | dotstar hp =>
    exact absurd (show (some '.' : Option Char) = some '/' from hh) (by decide)
  | star hp =>
    exact absurd (show (some '[' : Option Char) = some '/' from hh) (by decide)
  | quest hp =>
    exact absurd (show (some '[' : Option Char) = some '/' from hh) (by decide)
  | esc hc hp =>
    exact absurd (show (some '\\' : Option Char) = some '/' from hh) (by decide)
  | @plain c p hc hp =>
    have hcs : c = '/' := by simpa using hh
    exact ⟨p, hp, by rw [hcs]⟩

/-- An anchored `^` followed by a good body and a scannable, parseable
suffix gives a fully parseable pattern. -/
theorem parse_bol_body_suffix {b : List Char} (hb : GoodBody b)
    {rest : List Char} {toks : List RTok} (h1 : scanRe rest = some toks)
    (h2 : ∀ alts cur, (parseLoop none alts cur toks).isSome = true) :
    (parseRe ('^' :: (b ++ rest))).isSome = true := by
  obtain ⟨toks2, hsc, hpl⟩ := goodBody_parse_transfer hb rest toks h1 h2
  have hscan : scanRe ('^' :: (b ++ rest)) = some (RTok.bol :: toks2) := by
    rw [show scanRe ('^' :: (b ++ rest))
        = (scanRe (b ++ rest)).map (RTok.bol :: ·) from rfl, hsc]
    rfl
  unfold parseRe
  rw [hscan]
  exact parse_prefix_bol toks2 hpl [] []

/-- The group prefix `(?:^|/)` followed by a good body and a scannable,
parseable suffix gives a fully parseable pattern. -/
theorem parse_group_body_suffix {b : List Char} (hb : GoodBody b)
    {rest : List Char} {toks : List RTok} (h1 : scanRe rest = some toks)
    (h2 : ∀ alts cur, (parseLoop none alts cur toks).isSome = true) :
    (parseRe ('(' :: '?' :: ':' :: '^' :: '|' :: '/' :: ')' ::
      (b ++ rest))).isSome = true := by
  obtain ⟨toks2, hsc, hpl⟩ := goodBody_parse_transfer hb rest toks h1 h2
  have hscan : scanRe ('(' :: '?' :: ':' :: '^' :: '|' :: '/' :: ')' ::
      (b ++ rest)) = some (RTok.gopen :: RTok.bol :: RTok.bar ::
        RTok.lit '/' :: RTok.gclose :: toks2) := by
    rw [show scanRe ('(' :: '?' :: ':' :: '^' :: '|' :: '/' :: ')' ::
          (b ++ rest))
        = (((((scanRe (b ++ rest)).map (RTok.gclose :: ·)).map
            (RTok.lit '/' :: ·)).map (RTok.bar :: ·)).map
              (RTok.bol :: ·)).map (RTok.gopen :: ·) from rfl, hsc]
    rfl
  unfold parseRe
  rw [hscan]
  exact parse_prefix_group toks2 hpl [] []

/-- The directory suffix of length nine scans to its token list. -/
theorem scan_dir_dollar :
    scanRe ['(', '?', ':', '/', '.', '*', ')', '?', '$']
      = some [RTok.gopen, RTok.lit '/', RTok.dot, RTok.star, RTok.gclose,
          RTok.quest, RTok.eol] := rfl

/-- The bare `$` suffix scans to the end anchor. -/
theorem scan_dollar : scanRe ['$'] = some [RTok.eol] := rfl

/-- Every compiled ignore rule is accepted by the regex parser:
`re.compile` applied to a `_glob_to_regex` output never raises. -/
theorem globToRegex_parses (p : List Char) :
    (parseRe (globToRegex p)).isSome = true := by
  by_cases hp : p = []
  · subst hp; rfl
  · simp only [globToRegex, if_neg hp, chain_eq_globBody]
    have hb := globBody_good p
    by_cases hlast : (globBody p).getLast? = some '/'
    · rw [if_pos hlast]
      obtain ⟨b2, hg2, he⟩ := goodBody_getLast_slash hb hlast
      rw [he, List.dropLast_concat]
      by_cases hh : b2.head? = some '/'
      · obtain ⟨b3, hg3, he3⟩ := goodBody_head_slash hg2 hh
        rw [he3]
        rw [if_pos (show (('/' :: b3) ++
            ['(', '?', ':', '/', '.', '*', ')', '?']).head? = some '/' from rfl)]
        rw [show (('/' :: b3) ++ ['(', '?', ':', '/', '.', '*', ')', '?']).tail
            = b3 ++ ['(', '?', ':', '/', '.', '*', ')', '?'] from rfl]
        rw [show ('^' :: (b3 ++ ['(', '?', ':', '/', '.', '*', ')', '?'])) ++ ['$']
            = '^' :: ((b3 ++ ['(', '?', ':', '/', '.', '*', ')', '?']) ++ ['$'])
            from rfl, List.append_assoc]
        exact parse_bol_body_suffix hg3 scan_dir_dollar parse_suffix_group
      · have hcond : ¬ ((b2 ++
            ['(', '?', ':', '/', '.', '*', ')', '?']).head? = some '/') := by
          cases b2 with
          | nil => exact fun hcon => absurd hcon (by decide)
          | cons c l => exact fun hcon => hh hcon
        rw [if_neg hcond]
        rw [show (['(', '?', ':', '^', '|', '/', ')'] ++
            (b2 ++ ['(', '?', ':', '/', '.', '*', ')', '?'])) ++ ['$']
            = '(' :: '?' :: ':' :: '^' :: '|' :: '/' :: ')' ::
              ((b2 ++ ['(', '?', ':', '/', '.', '*', ')', '?']) ++ ['$'])
            from rfl, List.append_assoc]
        exact parse_group_body_suffix hg2 scan_dir_dollar parse_suffix_group
    · rw [if_neg hlast]
      by_cases hh : (globBody p).head? = some '/'
      · rw [if_pos hh]
        obtain ⟨b3, hg3, he3⟩ := goodBody_head_slash hb hh
        rw [he3, List.tail_cons]
        rw [show ('^' :: b3) ++ ['$'] = '^' :: (b3 ++ ['$']) from rfl]
        exact parse_bol_body_suffix hg3 scan_dollar parse_suffix_dollar
      · rw [if_neg hh]
        rw [show (['(', '?', ':', '^', '|', '/', ')'] ++ globBody p) ++ ['$']
            = '(' :: '?' :: ':' :: '^' :: '|' :: '/' :: ')' ::
              (globBody p ++ ['$']) from rfl]
        exact parse_group_body_suffix hb scan_dollar parse_suffix_dollar


/-- A pattern accepted by the parser gives `re.search` a value on any
text. -/
theorem reSearchPat_some {p : List Char} (h : (parseRe p).isSome = true)
    (s : List Char) : ∃ b, reSearchPat p s = some b := by
  obtain ⟨r, hr⟩ := Option.isSome_iff_exists.mp h
  exact ⟨reSearch r s, by simp [reSearchPat, hr]⟩

/-- When every pattern of the list is accepted by the parser,
`_should_ignore` returns normally on every path. -/
theorem shouldIgnoreE_ok {pats : List (List Char)}
    (h : ∀ p ∈ pats, (parseRe p).isSome = true) (rel : List Char) :
    ∃ b, shouldIgnoreE pats rel = Except.ok b := by
  induction pats with
  | nil => exact ⟨false, rfl⟩
  | cons p rest ih =>
    have hp := h p (List.mem_cons_self p rest)
    obtain ⟨b1, hb1⟩ := reSearchPat_some hp rel
    obtain ⟨b2, hb2⟩ := reSearchPat_some hp (pyBasename rel)
    obtain ⟨b3, hb3⟩ := ih (fun q hq => h q (List.mem_cons_of_mem p hq))
    cases b1 with
    | true => exact ⟨true, by simp [shouldIgnoreE, hb1]⟩
    | false =>
      cases b2 with
      | true => exact ⟨true, by simp [shouldIgnoreE, hb1, hb2]⟩
      | false => exact ⟨b3, by simp [shouldIgnoreE, hb1, hb2, hb3]⟩

/-- Each of the ten hard-coded default patterns is accepted by the
parser. -/
theorem defaultPatterns_parse :
    ∀ p ∈ defaultPatterns, (parseRe p).isSome = true := by decide

/-- Every pattern compiled from a `.gitignore` line is a `_glob_to_regex`
output, hence accepted by the parser. -/
theorem gitignorePatterns_parse (lines : List (List Char)) :
    ∀ q ∈ gitignorePatterns lines, (parseRe q).isSome = true := by
  induction lines with
  | nil => simp [gitignorePatterns]
  | cons line rest ih =>
    intro q hq
    simp only [gitignorePatterns] at hq
    by_cases h1 : pyStrip line ≠ [] ∧ ¬ (['#'].isPrefixOf (pyStrip line))
    · rw [if_pos h1] at hq
      by_cases h2 : ['!'].isPrefixOf (pyStrip line)
      · rw [if_pos h2] at hq
        exact ih q hq
      · rw [if_neg h2] at hq
        rcases List.mem_cons.mp hq with hq | hq
        · exact hq ▸ globToRegex_parses (pyStrip line)
        · exact ih q hq
    · rw [if_neg h1] at hq
      exact ih q hq

/-- Every pattern assembled by `_load_gitignore` — a default, a
`.gitignore` rule or a compiled caller pattern — is accepted by the
parser. -/
theorem loadIgnorePatterns_parse (gl : Option (List (List Char)))
    (cp : List (List Char)) :
    ∀ q ∈ loadIgnorePatterns gl cp, (parseRe q).isSome = true := by
  cases gl with
  | none => simp [loadIgnorePatterns]
  | some lines =>
    intro q hq
    simp only [loadIgnorePatterns] at hq
    rcases List.mem_append.mp hq with hq | hq
    · rcases List.mem_append.mp hq with hq | hq
      · exact defaultPatterns_parse q hq
      · exact gitignorePatterns_parse lines q hq
    · obtain ⟨g, hg, hgq⟩ := List.mem_map.mp hq
      exact hgq ▸ globToRegex_parses g

/-- C3: for every pattern string fed to `_glob_to_regex` — empty, blank
or syntactically pathological — and for the hard-coded defaults, the
compiled pattern set makes `_should_ignore` return normally on every
path: no `re.error` escapes, so the traversal always completes.  (The
conditional clause of the claim — a pattern that fails to compile is
treated as never matching — is vacuous: no produced pattern fails to
compile.) -/
theorem c3_should_ignore_never_raises
    (gitignoreLines : Option (List (List Char)))
    (callerPats : List (List Char)) (rel : List Char) :
    ∃ b, shouldIgnoreE (loadIgnorePatterns gitignoreLines callerPats) rel
      = Except.ok b :=
  shouldIgnoreE_ok (loadIgnorePatterns_parse gitignoreLines callerPats) rel

end CodeFlattener
